import Mathlib

/-!
# Verification of the trotro route-search core

Shallow embedding of the transit route-search algorithm:

* `Generalized.findBestPath` embeds the priority-generalized implementation
  (`findBestPath` with `cmpCost` over the three priorities).
* `Historical.findBestPath` embeds the historical fare-hardwired implementation.

Modelling conventions:

* JavaScript numbers are embedded as `ℚ`; leg counters as `ℕ`.
  The claims proved here are structural identities and order comparisons,
  which are produced by the very same additions on both sides in the source,
  so exact arithmetic is the faithful model.
* The transcendental primitives `Math.sin`, `Math.cos`, `Math.atan2`,
  `Math.sqrt`, `Math.PI` used by `haversine` are opaque library calls; they
  are abstracted into a `TrigOps` record of rational functions, and
  `haversine` is the source formula over that record.
* A `Map` consulted only through `get`/`set` is embedded as a function
  `String → Option _` updated pointwise; `Map.set` overwrites, so later
  entries win, exactly as in the source fold order.
* The `(Infinity, Infinity, Infinity)` sentinel cost and an absent `best`
  entry are both embedded as `none`: the source only ever compares a finite
  cost against the sentinel, and `finite - Infinity = -Infinity < 0`,
  `Infinity - finite = Infinity > 0`, which `cmpCostOpt` reproduces.
* `Array.prototype.sort` with a consistent comparator produces the unique
  stable order; it is embedded as `List.insertionSort` with the relation
  `cmpCost _ _ ≤ 0`, which is a stable sort.
* The unbounded `while` loop is embedded with an explicit fuel parameter;
  `none` means the fuel ran out, `some none` is the source's `null`
  (unreachable), `some (some r)` a returned `PathResult`.
-/

/-- Priority selector, one of the three literals `"fare" | "distance" | "stops"`. -/
inductive Priority where
  | fare
  | distance
  | stops
deriving DecidableEq, Repr

/-- A stop record as consumed by the algorithm: display name and `[lat, lng]`
coordinates.  The optional identifier is never read by the search and is omitted. -/
structure Stop where
  name : String
  coords : ℚ × ℚ
deriving DecidableEq, Repr

/-- A route record as consumed by the algorithm: endpoint names, fare and
optional distance.  Display-only fields (id, endpoint coordinate copies,
intermediate waypoints) are never read by the search and are omitted.
`from` is a Lean keyword, hence the field name `from_`. -/
structure Route where
  from_ : String
  to_ : String
  fare : ℚ
  distance : Option ℚ
deriving DecidableEq, Repr

/-- One traversed edge of a result path. -/
structure RouteLeg where
  from_ : String
  to_ : String
  fare : ℚ
  distance : ℚ
deriving DecidableEq, Repr

/-- The result record of a successful search. -/
structure PathResult where
  path : List String
  legs : List RouteLeg
  totalFare : ℚ
  totalDistance : ℚ
  totalStops : ℕ
deriving DecidableEq, Repr

/-- The 3-key cost label `{fare, stops, distance}` accumulated along a path. -/
structure Cost where
  fare : ℚ
  stops : ℕ
  distance : ℚ
deriving DecidableEq, Repr

/-- A derived adjacency edge: target stop name, fare, distance. -/
structure Edge where
  to_ : String
  fare : ℚ
  distance : ℚ
deriving DecidableEq, Repr

/-- Abstract interface for the `Math` trigonometric primitives used by
`haversine`.  The algorithm never inspects these values other than piping
them through the haversine formula, so they are parameters of the model. -/
structure TrigOps where
  pi : ℚ
  sin : ℚ → ℚ
  cos : ℚ → ℚ
  atan2 : ℚ → ℚ → ℚ
  sqrt : ℚ → ℚ

/-- Haversine distance between two `[lat, lng]` points in km
(`R = 6371`), following the source formula over the abstract trig record. -/
def haversine (T : TrigOps) (a b : ℚ × ℚ) : ℚ :=
  let R : ℚ := 6371
  let toRad : ℚ → ℚ := fun x => x * T.pi / 180
  let lat1 := toRad a.1
  let lon1 := toRad a.2
  let lat2 := toRad b.1
  let lon2 := toRad b.2
  let dLat := lat2 - lat1
  let dLon := lon2 - lon1
  let A := T.sin (dLat / 2) ^ 2 + T.cos lat1 * T.cos lat2 * T.sin (dLon / 2) ^ 2
  let C := 2 * T.atan2 (T.sqrt A) (T.sqrt (1 - A))
  R * C

/-- A trivial trig record (all primitives constantly zero); under it
`haversine` evaluates to `0`.  Used to instantiate theorems on concrete inputs. -/
def Tzero : TrigOps :=
  { pi := 0, sin := fun _ => 0, cos := fun _ => 0, atan2 := fun _ _ => 0, sqrt := fun _ => 0 }

/-- The `coordsByName` map: each stop's coordinates keyed by name, later
duplicates overwriting earlier ones (`Map.set` semantics). -/
def buildCoords (stopsArr : List Stop) : String → Option (ℚ × ℚ) :=
  stopsArr.foldl (fun m s => fun u => if u = s.name then some s.coords else m u)
    (fun _ => none)

namespace Generalized

/-- The adjacency map of the generalized implementation: for each route whose
two endpoint names resolve in `coords`, append the forward edge under the
origin key and the reverse edge under the destination key; otherwise skip the
route.  Distance is the declared one if present (`??`), else haversine. -/
def buildAdj (T : TrigOps) (coords : String → Option (ℚ × ℚ)) (routesArr : List Route) :
    String → List Edge :=
  routesArr.foldl (fun adj r =>
    match coords r.from_, coords r.to_ with
    | some fromCoords, some toCoords =>
      let dist := r.distance.getD (haversine T fromCoords toCoords)
      let adj1 : String → List Edge :=
        fun u => if u = r.from_ then adj u ++ [⟨r.to_, r.fare, dist⟩] else adj u
      fun u => if u = r.to_ then adj1 u ++ [⟨r.from_, r.fare, dist⟩] else adj1 u
    | _, _ => adj)
    (fun _ => [])

/-- The source's `cmpCost`, returning a rational whose sign orders the two
cost tuples by the priority-determined key sequence. -/
def cmpCost (priority : Priority) (a b : Cost) : ℚ :=
  match priority with
  | .fare =>
    if a.fare ≠ b.fare then a.fare - b.fare
    else if a.stops ≠ b.stops then (a.stops : ℚ) - (b.stops : ℚ)
    else a.distance - b.distance
  | .distance =>
    if a.distance ≠ b.distance then a.distance - b.distance
    else if a.fare ≠ b.fare then a.fare - b.fare
    else (a.stops : ℚ) - (b.stops : ℚ)
  | .stops =>
    if a.stops ≠ b.stops then (a.stops : ℚ) - (b.stops : ℚ)
    else if a.fare ≠ b.fare then a.fare - b.fare
    else a.distance - b.distance

/-- `cmpCost` applied against a possibly-infinite best entry: the stored
`(Infinity, Infinity, Infinity)` sentinel (or an absent key, recovered by
`?? {Infinity, ...}`) is `none`, and JS evaluates `finite - Infinity` to
`-Infinity`; any negative rational represents it for the sign tests. -/
def cmpCostOpt (priority : Priority) (a : Cost) (b : Option Cost) : ℚ :=
  match b with
  | some b => cmpCost priority a b
  | none => -1

/-- A frontier record: current stop, path so far, legs so far, accumulated cost. -/
structure Node where
  node : String
  path : List String
  legs : List RouteLeg
  cost : Cost
deriving DecidableEq, Repr

/-- The mutable search state: the pending queue and the best-known cost map. -/
structure SearchState where
  pq : List Node
  best : String → Option Cost

/-- The candidate cost after traversing one edge: fare and distance
accumulate, the leg counter increments by one. -/
def addC (c : Cost) (e : Edge) : Cost :=
  ⟨c.fare + e.fare, c.stops + 1, c.distance + e.distance⟩

/-- Relaxation of a single outgoing edge: if the candidate cost strictly
beats the best known cost of the target, record it and append the extended
frontier record to the queue; otherwise leave the state unchanged. -/
def relaxStep (priority : Priority) (current : Node) (st : SearchState) (edge : Edge) :
    SearchState :=
  let newCost := addC current.cost edge
  if cmpCostOpt priority newCost (st.best edge.to_) < 0 then
    { pq := st.pq ++
        [{ node := edge.to_
           path := current.path ++ [edge.to_]
           legs := current.legs ++ [⟨current.node, edge.to_, edge.fare, edge.distance⟩]
           cost := newCost }]
      best := fun u => if u = edge.to_ then some newCost else st.best u }
  else st

/-- Relax every outgoing edge of the current record in order, threading the
best map (so a later parallel edge sees the earlier update). -/
def relaxEdges (priority : Priority) (current : Node) (edges : List Edge)
    (st : SearchState) : SearchState :=
  edges.foldl (relaxStep priority current) st

/-- Assemble the `PathResult` of an extracted record that reached the goal. -/
def mkResult (current : Node) : PathResult :=
  { path := current.path
    legs := current.legs
    totalFare := current.cost.fare
    totalDistance := current.cost.distance
    totalStops := current.cost.stops }

/-- The search loop: sort the queue by `cmpCost` (stable, as JS `sort`),
shift the head, drop it if superseded, return on the goal, otherwise relax
its edges onto the sorted remainder.  `none` = fuel exhausted,
`some none` = the source's `null`. -/
def searchLoop (priority : Priority) (adj : String → List Edge) (end_ : String) :
    ℕ → SearchState → Option (Option PathResult)
  | 0, _ => none
  | fuel + 1, st =>
    match List.insertionSort (fun A B : Node => cmpCost priority A.cost B.cost ≤ 0) st.pq with
    | [] => some none
    | current :: rest =>
      if cmpCostOpt priority current.cost (st.best current.node) > 0 then
        searchLoop priority adj end_ fuel ⟨rest, st.best⟩
      else if current.node = end_ then
        some (some (mkResult current))
      else
        searchLoop priority adj end_ fuel
          (relaxEdges priority current (adj current.node) ⟨rest, st.best⟩)

/-- The generalized `findBestPath`: degenerate answer when `start === end`,
otherwise build `coordsByName` and the adjacency map and run the search from
the seed record, with `best[start] = (0,0,0)` and every other stop at the
infinite sentinel. -/
def findBestPath (T : TrigOps) (stopsArr : List Stop) (routesArr : List Route)
    (start end_ : String) (priority : Priority) (fuel : ℕ) :
    Option (Option PathResult) :=
  if start = end_ then
    some (some { path := [start], legs := [], totalFare := 0, totalDistance := 0,
                 totalStops := 0 })
  else
    searchLoop priority (buildAdj T (buildCoords stopsArr) routesArr) end_ fuel
      { pq := [{ node := start, path := [start], legs := [], cost := ⟨0, 0, 0⟩ }]
        best := fun u => if u = start then some ⟨0, 0, 0⟩ else none }

end Generalized

/-! ## Specification-side notions

The key tuples, the lexicographic order from the spec's words ("the first
differing key is smaller"), paths through the adjacency structure, and the
cost of a list of legs. -/

/-- The priority-determined key sequence of a cost tuple, per the spec table:
fare → (fare, legCount, distance); distance → (distance, fare, legCount);
stops → (legCount, fare, distance). -/
def keys (p : Priority) (c : Cost) : ℚ × ℚ × ℚ :=
  match p with
  | .fare => (c.fare, ((c.stops : ℚ), c.distance))
  | .distance => (c.distance, (c.fare, (c.stops : ℚ)))
  | .stops => ((c.stops : ℚ), (c.fare, c.distance))

/-- Strict lexicographic order on key triples: the first differing key of the
left operand is smaller. -/
def lexLt (a b : ℚ × ℚ × ℚ) : Prop :=
  a.1 < b.1 ∨ (a.1 = b.1 ∧ (a.2.1 < b.2.1 ∨ (a.2.1 = b.2.1 ∧ a.2.2 < b.2.2)))

/-- Reflexive closure of `lexLt`. -/
def lexLe (a b : ℚ × ℚ × ℚ) : Prop :=
  lexLt a b ∨ a = b

instance : DecidablePred fun ab : (ℚ × ℚ × ℚ) × ℚ × ℚ × ℚ => lexLt ab.1 ab.2 := by
  intro ab
  unfold lexLt
  infer_instance

/-- `chainVia adj u legs w` holds when `legs` traces a path from `u` to `w`
whose every leg is backed by an edge of the adjacency structure with the same
target, fare and distance. -/
def chainVia (adj : String → List Edge) : String → List RouteLeg → String → Bool
  | u, [], w => u == w
  | u, leg :: rest, w =>
    (leg.from_ == u) &&
    (adj u).any (fun e => e.to_ == leg.to_ && e.fare == leg.fare && e.distance == leg.distance) &&
    chainVia adj leg.to_ rest w

/-- The aggregate cost of a list of legs: summed fares, leg count, summed
distances. -/
def costOfLegs (legs : List RouteLeg) : Cost :=
  ⟨(legs.map RouteLeg.fare).sum, legs.length, (legs.map RouteLeg.distance).sum⟩

namespace Historical

/-- The historical comparator: `true` iff `a` is strictly better than `b`
under fare-first lexicographic order (fare, then stops, then distance). -/
def isBetter (a b : Cost) : Bool :=
  if a.fare ≠ b.fare then decide (a.fare < b.fare)
  else if a.stops ≠ b.stops then decide (a.stops < b.stops)
  else decide (a.distance < b.distance)

/-- `isBetter` against a possibly-infinite best entry; a finite cost always
beats the `(Infinity, Infinity, Infinity)` sentinel. -/
def isBetterOpt (a : Cost) (b : Option Cost) : Bool :=
  match b with
  | some b => isBetter a b
  | none => true

/-- The historical componentwise equality test between the current cost and
the best entry (`fare === ∧ stops === ∧ distance ===`); always false against
the infinite sentinel. -/
def eqBestOpt (a : Cost) (b : Option Cost) : Bool :=
  match b with
  | some b => decide (a.fare = b.fare) && decide (a.stops = b.stops) && decide (a.distance = b.distance)
  | none => false

/-- A frontier record of the historical implementation. -/
structure NodeH where
  stop : String
  path : List String
  legs : List RouteLeg
  fare : ℚ
  stopsCount : ℕ
  distance : ℚ
deriving DecidableEq, Repr

/-- The historical result record; the source literal omits `totalStops`. -/
structure PathResultH where
  path : List String
  legs : List RouteLeg
  totalFare : ℚ
  totalDistance : ℚ
deriving DecidableEq, Repr

/-- The historical search state. -/
structure StateH where
  pq : List NodeH
  best : String → Option Cost

/-- The inline sort comparator of the historical implementation:
fare difference, then stop-count difference, then distance difference. -/
def cmpNodeH (A B : NodeH) : ℚ :=
  if A.fare ≠ B.fare then A.fare - B.fare
  else if A.stopsCount ≠ B.stopsCount then (A.stopsCount : ℚ) - (B.stopsCount : ℚ)
  else A.distance - B.distance

/-- One directional relaxation of the historical implementation: recompute the
haversine distance from the stored coordinates, build the candidate cost, and
on strict improvement record it and push the extended record. -/
def relaxH (T : TrigOps) (current : NodeH) (st : StateH) (legFrom legTo : String)
    (fare : ℚ) (fromCoords toCoords : ℚ × ℚ) : StateH :=
  let dist := haversine T fromCoords toCoords
  let newFare := current.fare + fare
  let newStops := current.stopsCount + 1
  let newDist := current.distance + dist
  let candidate : Cost := ⟨newFare, newStops, newDist⟩
  if isBetterOpt candidate (st.best legTo) then
    { pq := st.pq ++
        [{ stop := legTo
           path := current.path ++ [legTo]
           legs := current.legs ++ [⟨legFrom, legTo, fare, dist⟩]
           fare := newFare
           stopsCount := newStops
           distance := newDist }]
      best := fun u => if u = legTo then some candidate else st.best u }
  else st

/-- The reverse-direction block of the historical route scan
(`r.to → r.from` when the current stop is `r.to`). -/
def revPart (T : TrigOps) (coords : String → Option (ℚ × ℚ)) (current : NodeH)
    (st : StateH) (r : Route) : StateH :=
  if r.to_ = current.stop then
    match coords r.to_, coords r.from_ with
    | some fromCoords, some toCoords =>
      relaxH T current st r.to_ r.from_ r.fare fromCoords toCoords
    | _, _ => st
  else st

/-- One route of the historical neighbor scan: the forward block
(`r.from → r.to`), whose failed coordinate check `continue`s past the reverse
block as well, then the reverse block. -/
def routeStep (T : TrigOps) (coords : String → Option (ℚ × ℚ)) (current : NodeH)
    (st : StateH) (r : Route) : StateH :=
  if r.from_ = current.stop then
    match coords r.from_, coords r.to_ with
    | some fromCoords, some toCoords =>
      revPart T coords current (relaxH T current st r.from_ r.to_ r.fare fromCoords toCoords) r
    | _, _ => st
  else revPart T coords current st r

/-- The historical search loop; same pop/skip/goal/expand shape as the
generalized one, with the redundant doubled superseded-duplicate check of the
source (its inner fall-through branch is unreachable but kept). -/
def searchLoopH (T : TrigOps) (coords : String → Option (ℚ × ℚ)) (routesArr : List Route)
    (end_ : String) : ℕ → StateH → Option (Option PathResultH)
  | 0, _ => none
  | fuel + 1, st =>
    match List.insertionSort (fun A B : NodeH => cmpNodeH A B ≤ 0) st.pq with
    | [] => some none
    | current :: rest =>
      let curCost : Cost := ⟨current.fare, current.stopsCount, current.distance⟩
      if ¬ (isBetterOpt curCost (st.best current.stop) = true) ∧
          ¬ (eqBestOpt curCost (st.best current.stop) = true) then
        if ¬ (eqBestOpt curCost (st.best current.stop) = true) then
          searchLoopH T coords routesArr end_ fuel ⟨rest, st.best⟩
        else if current.stop = end_ then
          some (some ⟨current.path, current.legs, current.fare, current.distance⟩)
        else
          searchLoopH T coords routesArr end_ fuel
            (routesArr.foldl (routeStep T coords current) ⟨rest, st.best⟩)
      else if current.stop = end_ then
        some (some ⟨current.path, current.legs, current.fare, current.distance⟩)
      else
        searchLoopH T coords routesArr end_ fuel
          (routesArr.foldl (routeStep T coords current) ⟨rest, st.best⟩)

/-- The historical `findBestPath`: `null` when either endpoint name is absent
from the coordinate map, otherwise the fare-first search. -/
def findBestPath (T : TrigOps) (stopsArr : List Stop) (routesArr : List Route)
    (start end_ : String) (fuel : ℕ) : Option (Option PathResultH) :=
  let coordsByName := buildCoords stopsArr
  if (coordsByName start).isNone ∨ (coordsByName end_).isNone then some none
  else
    searchLoopH T coordsByName routesArr end_ fuel
      { pq := [{ stop := start, path := [start], legs := [], fare := 0, stopsCount := 0,
                 distance := 0 }]
        best := fun u => if u = start then some ⟨0, 0, 0⟩ else none }

/-- Translation of a historical frontier record into a generalized one. -/
def toNode (n : NodeH) : Generalized.Node :=
  ⟨n.stop, n.path, n.legs, ⟨n.fare, n.stopsCount, n.distance⟩⟩

/-- Projection of a generalized result onto the historical result shape
(dropping `totalStops`, which the historical literal does not set). -/
def projH (r : PathResult) : PathResultH :=
  ⟨r.path, r.legs, r.totalFare, r.totalDistance⟩

end Historical

namespace Generalized

/-- Structural soundness of a frontier record: its path is the start followed
by the leg targets, its legs trace an adjacency-backed path from the start to
its stop, and its cost is the aggregate cost of its legs. -/
def NodeInv (adj : String → List Edge) (start : String) (n : Node) : Prop :=
  n.path = start :: n.legs.map RouteLeg.to_ ∧
  chainVia adj start n.legs n.node = true ∧
  n.cost = costOfLegs n.legs

/-- The optimality invariant of the search state. -/
structure OptInv (p : Priority) (adj : String → List Edge) (start : String)
    (st : SearchState) : Prop where
  nodes : ∀ n ∈ st.pq, NodeInv adj start n
  dominate : ∀ n ∈ st.pq, ∃ b, st.best n.node = some b ∧ lexLe (keys p b) (keys p n.cost)
  openOrRelaxed : ∀ v c, st.best v = some c →
    (∃ n ∈ st.pq, n.node = v ∧ n.cost = c) ∨
    (∀ e ∈ adj v, ∃ b, st.best e.to_ = some b ∧ lexLe (keys p b) (keys p (addC c e)))
  bestStart : st.best start = some ⟨0, 0, 0⟩

/-- The vertex support of the graph: the start name together with every route
endpoint name. -/
def allNames (start : String) (routesArr : List Route) : Finset String :=
  insert start ((routesArr.map Route.from_).toFinset ∪ (routesArr.map Route.to_).toFinset)

/-- The termination invariant, with ghost closed set `C` and ghost lower
bound `L` on every queued cost. -/
structure TermInv (p : Priority) (adj : String → List Edge) (allN : Finset String)
    (C : Finset String) (L : Cost) (st : SearchState) : Prop where
  inAll : ∀ n ∈ st.pq, n.node ∈ allN
  lower : ∀ n ∈ st.pq, lexLe (keys p L) (keys p n.cost)
  closed : ∀ v ∈ C, ∃ c, st.best v = some c ∧ lexLe (keys p c) (keys p L) ∧
    ∀ n ∈ st.pq, n.node = v → lexLt (keys p c) (keys p n.cost)
  distinct : st.pq.Pairwise (fun n₁ n₂ => n₁.node = n₂.node → n₁.cost ≠ n₂.cost)
  dominate : ∀ n ∈ st.pq, ∃ b, st.best n.node = some b ∧ lexLe (keys p b) (keys p n.cost)

/-- The termination potential: pending queue length plus the total degree of
the not-yet-closed vertices. -/
def phi (adj : String → List Edge) (allN C : Finset String) (st : SearchState) : ℕ :=
  st.pq.length + ∑ v ∈ allN \ C, (adj v).length

end Generalized

/-! ## Order lemmas for the lexicographic key comparison -/

theorem lexLt_irrefl (a : ℚ × ℚ × ℚ) : ¬ lexLt a a := by
  unfold lexLt
  rintro (h | ⟨-, h | ⟨-, h⟩⟩) <;> exact lt_irrefl _ h

theorem lexLt_trans {a b c : ℚ × ℚ × ℚ} (hab : lexLt a b) (hbc : lexLt b c) : lexLt a c := by
  unfold lexLt at *
  rcases hab with h1 | ⟨e1, h1 | ⟨e1', h1⟩⟩ <;> rcases hbc with h2 | ⟨e2, h2 | ⟨e2', h2⟩⟩ <;>
    first
      | (left; linarith)
      | (right; exact ⟨by linarith, Or.inl (by linarith)⟩)
      | (right; exact ⟨by linarith, Or.inr ⟨by linarith, by linarith⟩⟩)

theorem lexLt_asymm {a b : ℚ × ℚ × ℚ} (hab : lexLt a b) : ¬ lexLt b a :=
  fun hba => lexLt_irrefl a (lexLt_trans hab hba)

theorem lexLt_trichotomy (a b : ℚ × ℚ × ℚ) : lexLt a b ∨ a = b ∨ lexLt b a := by
  obtain ⟨a1, a2, a3⟩ := a
  obtain ⟨b1, b2, b3⟩ := b
  rcases lt_trichotomy a1 b1 with h1 | h1 | h1
  · exact Or.inl (Or.inl h1)
  · rcases lt_trichotomy a2 b2 with h2 | h2 | h2
    · exact Or.inl (Or.inr ⟨h1, Or.inl h2⟩)
    · rcases lt_trichotomy a3 b3 with h3 | h3 | h3
      · exact Or.inl (Or.inr ⟨h1, Or.inr ⟨h2, h3⟩⟩)
      · exact Or.inr (Or.inl (by simp [h1, h2, h3]))
      · exact Or.inr (Or.inr (Or.inr ⟨h1.symm, Or.inr ⟨h2.symm, h3⟩⟩))
    · exact Or.inr (Or.inr (Or.inr ⟨h1.symm, Or.inl h2⟩))
  · exact Or.inr (Or.inr (Or.inl h1))

theorem lexLe_refl (a : ℚ × ℚ × ℚ) : lexLe a a := Or.inr rfl

theorem lexLe_of_lt {a b : ℚ × ℚ × ℚ} (h : lexLt a b) : lexLe a b := Or.inl h

theorem lexLe_trans {a b c : ℚ × ℚ × ℚ} (hab : lexLe a b) (hbc : lexLe b c) : lexLe a c := by
  rcases hab with hab | rfl
  · rcases hbc with hbc | rfl
    · exact Or.inl (lexLt_trans hab hbc)
    · exact Or.inl hab
  · exact hbc

theorem lexLt_of_le_of_lt {a b c : ℚ × ℚ × ℚ} (hab : lexLe a b) (hbc : lexLt b c) :
    lexLt a c := by
  rcases hab with hab | rfl
  · exact lexLt_trans hab hbc
  · exact hbc

theorem lexLt_of_lt_of_le {a b c : ℚ × ℚ × ℚ} (hab : lexLt a b) (hbc : lexLe b c) :
    lexLt a c := by
  rcases hbc with hbc | rfl
  · exact lexLt_trans hab hbc
  · exact hab

theorem not_lexLt_iff {a b : ℚ × ℚ × ℚ} : ¬ lexLt a b ↔ lexLe b a := by
  constructor
  · intro h
    rcases lexLt_trichotomy a b with h1 | rfl | h1
    · exact absurd h1 h
    · exact lexLe_refl _
    · exact Or.inl h1
  · rintro (h | rfl) hlt
    · exact lexLt_asymm h hlt
    · exact lexLt_irrefl _ hlt

theorem not_lexLe_iff {a b : ℚ × ℚ × ℚ} : ¬ lexLe a b ↔ lexLt b a := by
  constructor
  · intro h
    rcases lexLt_trichotomy a b with h1 | rfl | h1
    · exact absurd (lexLe_of_lt h1) h
    · exact absurd (lexLe_refl _) h
    · exact h1
  · intro h hle
    exact lexLt_irrefl _ (lexLt_of_le_of_lt hle h)

theorem lexLe_antisymm {a b : ℚ × ℚ × ℚ} (hab : lexLe a b) (hba : lexLe b a) : a = b := by
  rcases hab with hab | rfl
  · rcases hba with hba | rfl
    · exact absurd hba (lexLt_asymm hab)
    · rfl
  · rfl

/-! ## The comparator against the lexicographic key order (C2 support) -/

theorem keys_inj (p : Priority) {a b : Cost} (h : keys p a = keys p b) : a = b := by
  cases a
  cases b
  cases p <;> simp_all [keys, Nat.cast_inj]

theorem cmpCost_neg_iff (p : Priority) (a b : Cost) :
    Generalized.cmpCost p a b < 0 ↔ lexLt (keys p a) (keys p b) := by
  cases p <;>
    rcases eq_or_ne a.fare b.fare with h1 | h1 <;>
    rcases eq_or_ne a.stops b.stops with h2 | h2 <;>
    rcases eq_or_ne a.distance b.distance with h3 | h3 <;>
    simp [Generalized.cmpCost, keys, lexLt, h1, h2, h3, sub_neg, sub_eq_zero,
      Nat.cast_inj, Nat.cast_lt]

theorem cmpCost_zero_iff (p : Priority) (a b : Cost) :
    Generalized.cmpCost p a b = 0 ↔ keys p a = keys p b := by
  cases p <;>
    rcases eq_or_ne a.fare b.fare with h1 | h1 <;>
    rcases eq_or_ne a.stops b.stops with h2 | h2 <;>
    rcases eq_or_ne a.distance b.distance with h3 | h3 <;>
    simp [Generalized.cmpCost, keys, h1, h2, h3, sub_eq_zero, Nat.cast_inj]

theorem cmpCost_nonpos_iff (p : Priority) (a b : Cost) :
    Generalized.cmpCost p a b ≤ 0 ↔ lexLe (keys p a) (keys p b) := by
  rw [le_iff_lt_or_eq]
  unfold lexLe
  rw [cmpCost_neg_iff, cmpCost_zero_iff]

theorem cmpCost_pos_iff (p : Priority) (a b : Cost) :
    0 < Generalized.cmpCost p a b ↔ lexLt (keys p b) (keys p a) := by
  rw [← not_le, cmpCost_nonpos_iff, not_lexLe_iff]

/-- C2: for every priority, `cmpCost` compares two cost tuples by the
priority-determined key sequence — fare: (fare, legCount, distance);
distance: (distance, fare, legCount); stops: (legCount, fare, distance) —
returning a negative number iff the first differing key of the first argument
is smaller, and zero iff the two tuples agree on all three keys. -/
theorem cmpCost_matches_lex_spec (p : Priority) (a b : Cost) :
    (Generalized.cmpCost p a b < 0 ↔ lexLt (keys p a) (keys p b)) ∧
    (Generalized.cmpCost p a b = 0 ↔ keys p a = keys p b) :=
  ⟨cmpCost_neg_iff p a b, cmpCost_zero_iff p a b⟩

/-- C3: whenever the start name equals the end name, `findBestPath` returns
the degenerate result: single-stop path, no legs, all aggregates zero. -/
theorem findBestPath_start_eq_end (T : TrigOps) (stopsArr : List Stop)
    (routesArr : List Route) (start end_ : String) (p : Priority) (fuel : ℕ)
    (h : start = end_) :
    Generalized.findBestPath T stopsArr routesArr start end_ p fuel =
      some (some ⟨[start], [], 0, 0, 0⟩) := by
  simp [Generalized.findBestPath, h]

/-- Witness for C3 at a concrete input. -/
theorem findBestPath_start_eq_end_witness :
    Generalized.findBestPath Tzero [⟨"A", (0, 0)⟩] [] "A" "A" .fare 0 =
      some (some ⟨["A"], [], 0, 0, 0⟩) :=
  findBestPath_start_eq_end Tzero [⟨"A", (0, 0)⟩] [] "A" "A" .fare 0 rfl

/-! ## Graph-builder characterization (C4, C5 support) -/

theorem buildAdj_step (T : TrigOps) (coords : String → Option (ℚ × ℚ))
    (m : String → List Edge) (r : Route) (u : String) :
    (fun adj r =>
      match coords r.from_, coords r.to_ with
      | some fromCoords, some toCoords =>
        let dist := r.distance.getD (haversine T fromCoords toCoords)
        let adj1 : String → List Edge :=
          fun u => if u = r.from_ then adj u ++ [⟨r.to_, r.fare, dist⟩] else adj u
        fun u => if u = r.to_ then adj1 u ++ [⟨r.from_, r.fare, dist⟩] else adj1 u
      | _, _ => adj : (String → List Edge) → Route → String → List Edge) m r u =
      m u ++
        (match coords r.from_, coords r.to_ with
          | some fromCoords, some toCoords =>
            (if u = r.from_ then
              [⟨r.to_, r.fare, r.distance.getD (haversine T fromCoords toCoords)⟩] else []) ++
            (if u = r.to_ then
              [⟨r.from_, r.fare, r.distance.getD (haversine T fromCoords toCoords)⟩] else [])
          | _, _ => []) := by
  rcases h1 : coords r.from_ with - | fc <;> rcases h2 : coords r.to_ with - | tc <;>
    simp only [h1, h2] <;> try simp
  split_ifs <;> simp [List.append_assoc]

/-- C5: every route with both endpoint names resolvable contributes exactly
the forward edge (under its origin key) and the reverse edge (under its
destination key), both with the route's fare and one shared distance; a route
with an unresolvable endpoint contributes nothing. -/
theorem buildAdj_two_edges_per_route (T : TrigOps) (coords : String → Option (ℚ × ℚ))
    (routesArr : List Route) (u : String) :
    Generalized.buildAdj T coords routesArr u =
      routesArr.flatMap (fun r =>
        match coords r.from_, coords r.to_ with
        | some fromCoords, some toCoords =>
          (if u = r.from_ then
            [⟨r.to_, r.fare, r.distance.getD (haversine T fromCoords toCoords)⟩] else []) ++
          (if u = r.to_ then
            [⟨r.from_, r.fare, r.distance.getD (haversine T fromCoords toCoords)⟩] else [])
        | _, _ => []) := by
  suffices h : ∀ (rs : List Route) (m : String → List Edge),
      rs.foldl (fun adj r =>
        match coords r.from_, coords r.to_ with
        | some fromCoords, some toCoords =>
          let dist := r.distance.getD (haversine T fromCoords toCoords)
          let adj1 : String → List Edge :=
            fun u => if u = r.from_ then adj u ++ [⟨r.to_, r.fare, dist⟩] else adj u
          fun u => if u = r.to_ then adj1 u ++ [⟨r.from_, r.fare, dist⟩] else adj1 u
        | _, _ => adj) m u =
      m u ++ rs.flatMap (fun r =>
        match coords r.from_, coords r.to_ with
        | some fromCoords, some toCoords =>
          (if u = r.from_ then
            [⟨r.to_, r.fare, r.distance.getD (haversine T fromCoords toCoords)⟩] else []) ++
          (if u = r.to_ then
            [⟨r.from_, r.fare, r.distance.getD (haversine T fromCoords toCoords)⟩] else [])
        | _, _ => []) by
    simpa using h routesArr (fun _ => [])
  intro rs
  induction rs with
  | nil => intro m; simp
  | cons r rs ih =>
    intro m
    rw [List.foldl_cons, ih, List.flatMap_cons, ← List.append_assoc]
    congr 1
    exact buildAdj_step T coords m r u

/-- C4: for a route whose two endpoint names resolve against the stop list,
the derived edges carry the route's declared distance when present, and the
haversine great-circle distance (Earth radius 6371 km, baked into
`haversine`) between the two stops' coordinates otherwise — identically in
the forward and the reverse direction. -/
theorem buildAdj_edge_distance (T : TrigOps) (stopsArr : List Stop)
    (routesArr : List Route) (r : Route) (fc tc : ℚ × ℚ)
    (hr : r ∈ routesArr)
    (h1 : buildCoords stopsArr r.from_ = some fc)
    (h2 : buildCoords stopsArr r.to_ = some tc) :
    (⟨r.to_, r.fare,
        match r.distance with
        | some d => d
        | none => haversine T fc tc⟩ : Edge) ∈
      Generalized.buildAdj T (buildCoords stopsArr) routesArr r.from_ ∧
    (⟨r.from_, r.fare,
        match r.distance with
        | some d => d
        | none => haversine T fc tc⟩ : Edge) ∈
      Generalized.buildAdj T (buildCoords stopsArr) routesArr r.to_ := by
  have hd : (match r.distance with
      | some d => d
      | none => haversine T fc tc) = r.distance.getD (haversine T fc tc) := by
    cases r.distance <;> rfl
  rw [hd]
  constructor <;>
  · rw [buildAdj_two_edges_per_route]
    refine List.mem_flatMap.2 ⟨r, hr, ?_⟩
    simp [h1, h2]

/-- Witness for C4 at a concrete input (declared distance present). -/
theorem buildAdj_edge_distance_witness :
    (⟨"A", "B", 1, some 5⟩ : Route) ∈ [(⟨"A", "B", 1, some 5⟩ : Route)] ∧
    buildCoords [⟨"A", (0, 0)⟩, ⟨"B", (0, 1)⟩] "A" = some (0, 0) ∧
    buildCoords [⟨"A", (0, 0)⟩, ⟨"B", (0, 1)⟩] "B" = some (0, 1) ∧
    ((⟨"B", 1,
        match (⟨"A", "B", 1, some 5⟩ : Route).distance with
        | some d => d
        | none => haversine Tzero (0, 0) (0, 1)⟩ : Edge) ∈
      Generalized.buildAdj Tzero (buildCoords [⟨"A", (0, 0)⟩, ⟨"B", (0, 1)⟩])
        [⟨"A", "B", 1, some 5⟩] "A" ∧
    (⟨"A", 1,
        match (⟨"A", "B", 1, some 5⟩ : Route).distance with
        | some d => d
        | none => haversine Tzero (0, 0) (0, 1)⟩ : Edge) ∈
      Generalized.buildAdj Tzero (buildCoords [⟨"A", (0, 0)⟩, ⟨"B", (0, 1)⟩])
        [⟨"A", "B", 1, some 5⟩] "B") :=
  ⟨by decide, by decide, by decide,
    buildAdj_edge_distance Tzero [⟨"A", (0, 0)⟩, ⟨"B", (0, 1)⟩] [⟨"A", "B", 1, some 5⟩]
      ⟨"A", "B", 1, some 5⟩ (0, 0) (0, 1) (by decide) (by decide) (by decide)⟩

/-! ## Structural soundness of frontier records (C7, C8 support) -/

namespace Generalized

theorem chainVia_snoc {adj : String → List Edge} :
    ∀ (legs : List RouteLeg) (u v : String), chainVia adj u legs v = true →
      ∀ e ∈ adj v, chainVia adj u (legs ++ [⟨v, e.to_, e.fare, e.distance⟩]) e.to_ = true := by
  intro legs
  induction legs with
  | nil =>
    intro u v h e he
    have huv : u = v := by simpa [chainVia] using h
    subst huv
    simp only [List.nil_append, chainVia, Bool.and_eq_true, List.any_eq_true]
    refine ⟨⟨by simp, e, he, by simp⟩, by simp⟩
  | cons leg rest ih =>
    intro u v h e he
    simp only [chainVia, Bool.and_eq_true] at h
    obtain ⟨⟨h1, h2⟩, h3⟩ := h
    simp only [List.cons_append, chainVia, Bool.and_eq_true]
    exact ⟨⟨h1, h2⟩, ih leg.to_ v h3 e he⟩

theorem costOfLegs_snoc (legs : List RouteLeg) (l : RouteLeg) :
    costOfLegs (legs ++ [l]) =
      ⟨(costOfLegs legs).fare + l.fare, (costOfLegs legs).stops + 1,
        (costOfLegs legs).distance + l.distance⟩ := by
  simp [costOfLegs]

theorem relaxStep_nodes {p : Priority} {adj : String → List Edge} {start : String}
    {current : Node} {st : SearchState} {e : Edge}
    (hcur : NodeInv adj start current) (he : e ∈ adj current.node)
    (hst : ∀ n ∈ st.pq, NodeInv adj start n) :
    ∀ n ∈ (relaxStep p current st e).pq, NodeInv adj start n := by
  unfold relaxStep
  dsimp only []
  split_ifs with hguard
  · intro n hn
    simp only [List.mem_append, List.mem_singleton] at hn
    rcases hn with hn | rfl
    · exact hst n hn
    · obtain ⟨hpath, hchain, hcost⟩ := hcur
      refine ⟨?_, ?_, ?_⟩
      · simp [hpath]
      · exact chainVia_snoc current.legs start current.node hchain e he
      · rw [costOfLegs_snoc, ← hcost, addC]
    
  · exact hst

theorem relaxEdges_nodes {p : Priority} {adj : String → List Edge} {start : String}
    {current : Node} (hcur : NodeInv adj start current) :
    ∀ (edges : List Edge), (∀ e ∈ edges, e ∈ adj current.node) →
      ∀ (st : SearchState), (∀ n ∈ st.pq, NodeInv adj start n) →
      ∀ n ∈ (relaxEdges p current edges st).pq, NodeInv adj start n := by
  intro edges
  induction edges with
  | nil => intro _ st hst; exact hst
  | cons e rest ih =>
    intro hsub st hst
    rw [relaxEdges, List.foldl_cons]
    exact ih (fun x hx => hsub x (List.mem_cons_of_mem e hx))
      (relaxStep p current st e)
      (relaxStep_nodes hcur (hsub e (List.mem_cons_self e rest)) hst)

theorem searchLoop_result_ok {p : Priority} {adj : String → List Edge}
    {start end_ : String} :
    ∀ (fuel : ℕ) (st : SearchState) (res : PathResult),
      (∀ n ∈ st.pq, NodeInv adj start n) →
      searchLoop p adj end_ fuel st = some (some res) →
      ∃ cur : Node, NodeInv adj start cur ∧ cur.node = end_ ∧ res = mkResult cur := by
  intro fuel
  induction fuel with
  | zero => intro st res _ h; simp [searchLoop] at h
  | succ fuel ih =>
    intro st res hnodes h
    rw [searchLoop] at h
    rcases hsort : List.insertionSort
        (fun A B : Node => cmpCost p A.cost B.cost ≤ 0) st.pq with - | ⟨cur, rest⟩
    · rw [hsort] at h
      simp at h
    · rw [hsort] at h
      dsimp only [] at h
      have hsubset : ∀ n, n ∈ cur :: rest → n ∈ st.pq := by
        intro n hn
        exact (List.perm_insertionSort
          (fun A B : Node => cmpCost p A.cost B.cost ≤ 0) st.pq).subset (hsort ▸ hn)
      have hcur : NodeInv adj start cur := hnodes cur (hsubset cur (List.mem_cons_self _ _))
      have hrest : ∀ n ∈ rest, NodeInv adj start n := fun n hn =>
        hnodes n (hsubset n (List.mem_cons_of_mem cur hn))
      split_ifs at h with hskip hgoal
      · exact ih ⟨rest, st.best⟩ res hrest h
      · refine ⟨cur, hcur, hgoal, ?_⟩
        simpa using h.symm
      · exact ih _ res
          (relaxEdges_nodes hcur (adj cur.node) (fun _ hx => hx) ⟨rest, st.best⟩ hrest) h

theorem seed_nodeInv (adj : String → List Edge) (start : String) :
    NodeInv adj start ⟨start, [start], [], ⟨0, 0, 0⟩⟩ :=
  ⟨by simp, by simp [chainVia], by simp [costOfLegs]⟩

theorem seed_nodes (adj : String → List Edge) (start : String) :
    ∀ n ∈ [(⟨start, [start], [], ⟨0, 0, 0⟩⟩ : Node)], NodeInv adj start n := by
  intro n hn
  rw [List.mem_singleton] at hn
  subst hn
  exact seed_nodeInv adj start

end Generalized

/-- C7: every successful result has one leg fewer than path entries, and its
`totalStops` equals its number of legs. -/
theorem result_legs_path_stops (T : TrigOps) (stopsArr : List Stop)
    (routesArr : List Route) (start end_ : String) (p : Priority) (fuel : ℕ)
    (res : PathResult)
    (h : Generalized.findBestPath T stopsArr routesArr start end_ p fuel =
      some (some res)) :
    res.legs.length = res.path.length - 1 ∧ res.totalStops = res.legs.length := by
  unfold Generalized.findBestPath at h
  split_ifs at h with hse
  · obtain rfl : res = ⟨[start], [], 0, 0, 0⟩ := by simpa using h.symm
    simp
  · obtain ⟨cur, ⟨hpath, -, hcost⟩, -, rfl⟩ :=
      Generalized.searchLoop_result_ok fuel _ res (Generalized.seed_nodes _ start) h
    refine ⟨?_, ?_⟩
    · simp [Generalized.mkResult, hpath]
    · simp [Generalized.mkResult, hcost, costOfLegs]

/-- Witness for C7 at a concrete input. -/
theorem result_legs_path_stops_witness :
    Generalized.findBestPath Tzero [⟨"A", (0, 0)⟩, ⟨"B", (0, 1)⟩] [⟨"A", "B", 1, some 5⟩]
        "A" "B" .fare 3 =
      some (some ⟨["A", "B"], [⟨"A", "B", 1, 5⟩], 1, 5, 1⟩) ∧
    ((⟨["A", "B"], [⟨"A", "B", 1, 5⟩], 1, 5, 1⟩ : PathResult).legs.length =
      (⟨["A", "B"], [⟨"A", "B", 1, 5⟩], 1, 5, 1⟩ : PathResult).path.length - 1 ∧
    (⟨["A", "B"], [⟨"A", "B", 1, 5⟩], 1, 5, 1⟩ : PathResult).totalStops =
      (⟨["A", "B"], [⟨"A", "B", 1, 5⟩], 1, 5, 1⟩ : PathResult).legs.length) := by
  have heval : Generalized.findBestPath Tzero [⟨"A", (0, 0)⟩, ⟨"B", (0, 1)⟩]
      [⟨"A", "B", 1, some 5⟩] "A" "B" .fare 3 =
      some (some ⟨["A", "B"], [⟨"A", "B", 1, 5⟩], 1, 5, 1⟩) := by
    norm_num +decide [Generalized.findBestPath, Generalized.searchLoop,
      Generalized.relaxEdges, Generalized.relaxStep, Generalized.cmpCost,
      Generalized.cmpCostOpt, Generalized.mkResult, Generalized.addC,
      Generalized.buildAdj, buildCoords, List.insertionSort, List.orderedInsert]
  exact ⟨heval, result_legs_path_stops Tzero _ _ "A" "B" .fare 3 _ heval⟩

/-- C8: every successful result's `totalFare` is exactly the sum of its leg
fares and its `totalDistance` exactly the sum of its leg distances. -/
theorem result_totals_are_sums (T : TrigOps) (stopsArr : List Stop)
    (routesArr : List Route) (start end_ : String) (p : Priority) (fuel : ℕ)
    (res : PathResult)
    (h : Generalized.findBestPath T stopsArr routesArr start end_ p fuel =
      some (some res)) :
    res.totalFare = (res.legs.map RouteLeg.fare).sum ∧
    res.totalDistance = (res.legs.map RouteLeg.distance).sum := by
  unfold Generalized.findBestPath at h
  split_ifs at h with hse
  · obtain rfl : res = ⟨[start], [], 0, 0, 0⟩ := by simpa using h.symm
    simp
  · obtain ⟨cur, ⟨hpath, -, hcost⟩, -, rfl⟩ :=
      Generalized.searchLoop_result_ok fuel _ res (Generalized.seed_nodes _ start) h
    constructor <;> simp [Generalized.mkResult, hcost, costOfLegs]

/-- Witness for C8 at a concrete input. -/
theorem result_totals_are_sums_witness :
    Generalized.findBestPath Tzero [⟨"A", (0, 0)⟩, ⟨"B", (0, 1)⟩, ⟨"C", (0, 2)⟩]
        [⟨"A", "B", 1, some 1⟩, ⟨"B", "C", 1, some 1⟩, ⟨"A", "C", 5, some 2⟩]
        "A" "C" .fare 4 =
      some (some ⟨["A", "B", "C"], [⟨"A", "B", 1, 1⟩, ⟨"B", "C", 1, 1⟩], 2, 2, 2⟩) ∧
    ((⟨["A", "B", "C"], [⟨"A", "B", 1, 1⟩, ⟨"B", "C", 1, 1⟩], 2, 2, 2⟩ :
        PathResult).totalFare =
      ((⟨["A", "B", "C"], [⟨"A", "B", 1, 1⟩, ⟨"B", "C", 1, 1⟩], 2, 2, 2⟩ :
        PathResult).legs.map RouteLeg.fare).sum ∧
    (⟨["A", "B", "C"], [⟨"A", "B", 1, 1⟩, ⟨"B", "C", 1, 1⟩], 2, 2, 2⟩ :
        PathResult).totalDistance =
      ((⟨["A", "B", "C"], [⟨"A", "B", 1, 1⟩, ⟨"B", "C", 1, 1⟩], 2, 2, 2⟩ :
        PathResult).legs.map RouteLeg.distance).sum) := by
  have heval : Generalized.findBestPath Tzero [⟨"A", (0, 0)⟩, ⟨"B", (0, 1)⟩, ⟨"C", (0, 2)⟩]
      [⟨"A", "B", 1, some 1⟩, ⟨"B", "C", 1, some 1⟩, ⟨"A", "C", 5, some 2⟩]
      "A" "C" .fare 4 =
      some (some ⟨["A", "B", "C"], [⟨"A", "B", 1, 1⟩, ⟨"B", "C", 1, 1⟩], 2, 2, 2⟩) := by
    norm_num +decide [Generalized.findBestPath, Generalized.searchLoop,
      Generalized.relaxEdges, Generalized.relaxStep, Generalized.cmpCost,
      Generalized.cmpCostOpt, Generalized.mkResult, Generalized.addC,
      Generalized.buildAdj, buildCoords, List.insertionSort, List.orderedInsert]
  exact ⟨heval, result_totals_are_sums Tzero _ _ "A" "C" .fare 4 _ heval⟩

/-! ## Key arithmetic for the optimality argument (C1 support) -/

theorem keys_add (p : Priority) (f d : ℚ) (s : ℕ) (c : Cost) :
    keys p ⟨c.fare + f, c.stops + s, c.distance + d⟩ =
      keys p c + (match p with
        | .fare => (f, ((s : ℚ), d))
        | .distance => (d, (f, (s : ℚ)))
        | .stops => ((s : ℚ), (f, d))) := by
  cases p <;> simp [keys, Prod.ext_iff]

theorem lexLt_translate {x y d : ℚ × ℚ × ℚ} (h : lexLt x y) : lexLt (x + d) (y + d) := by
  obtain ⟨x1, x2, x3⟩ := x
  obtain ⟨y1, y2, y3⟩ := y
  obtain ⟨d1, d2, d3⟩ := d
  simp only [lexLt, Prod.mk_add_mk] at h ⊢
  rcases h with h | ⟨e1, h | ⟨e2, h⟩⟩
  · exact Or.inl (by linarith)
  · exact Or.inr ⟨by linarith, Or.inl (by linarith)⟩
  · exact Or.inr ⟨by linarith, Or.inr ⟨by linarith, by linarith⟩⟩

theorem lexLe_translate {x y d : ℚ × ℚ × ℚ} (h : lexLe x y) : lexLe (x + d) (y + d) := by
  rcases h with h | rfl
  · exact Or.inl (lexLt_translate h)
  · exact lexLe_refl _

theorem lexLe_add_nonneg_delta {x d : ℚ × ℚ × ℚ} (h1 : 0 ≤ d.1) (h2 : 0 ≤ d.2.1)
    (h3 : 0 ≤ d.2.2) : lexLe x (x + d) := by
  obtain ⟨x1, x2, x3⟩ := x
  obtain ⟨d1, d2, d3⟩ := d
  simp only at h1 h2 h3
  rcases eq_or_lt_of_le h1 with e1 | l1
  · rcases eq_or_lt_of_le h2 with e2 | l2
    · rcases eq_or_lt_of_le h3 with e3 | l3
      · right; simp [Prod.ext_iff, ← e1, ← e2, ← e3]
      · left; exact Or.inr ⟨by simp [← e1], Or.inr ⟨by simp [← e2], by simp; linarith⟩⟩
    · left; exact Or.inr ⟨by simp [← e1], Or.inl (by simp; linarith)⟩
  · left; exact Or.inl (by simp; linarith)

theorem lexLt_add_pos_delta {x d : ℚ × ℚ × ℚ} (h : lexLt (0, 0, 0) d) :
    lexLt x (x + d) := by
  have := lexLt_translate (d := x) h
  simpa [add_comm] using this

theorem lexLt_keys_addC (p : Priority) {c : Cost} {e : Edge}
    (hf : 0 ≤ e.fare) (hd : 0 ≤ e.distance) :
    lexLt (keys p c) (keys p (Generalized.addC c e)) := by
  have hform : Generalized.addC c e =
      ⟨c.fare + e.fare, c.stops + 1, c.distance + e.distance⟩ := rfl
  rw [hform, keys_add]
  cases p
  · refine lexLt_add_pos_delta ?_
    rcases eq_or_lt_of_le hf with h | h
    · exact Or.inr ⟨h, Or.inl (by norm_num)⟩
    · exact Or.inl h
  · refine lexLt_add_pos_delta ?_
    rcases eq_or_lt_of_le hd with h1 | h1
    · rcases eq_or_lt_of_le hf with h2 | h2
      · exact Or.inr ⟨h1, Or.inr ⟨h2, by norm_num⟩⟩
      · exact Or.inr ⟨h1, Or.inl h2⟩
    · exact Or.inl h1
  · exact lexLt_add_pos_delta (Or.inl (by norm_num))

theorem lexLe_keys_addC_mono (p : Priority) {a b : Cost} (e : Edge)
    (h : lexLe (keys p a) (keys p b)) :
    lexLe (keys p (Generalized.addC a e)) (keys p (Generalized.addC b e)) := by
  have ha : Generalized.addC a e = ⟨a.fare + e.fare, a.stops + 1, a.distance + e.distance⟩ := rfl
  have hb : Generalized.addC b e = ⟨b.fare + e.fare, b.stops + 1, b.distance + e.distance⟩ := rfl
  rw [ha, hb, keys_add, keys_add]
  exact lexLe_translate h

theorem keys_zero (p : Priority) : keys p ⟨0, 0, 0⟩ = (0, 0, 0) := by
  cases p <;> simp [keys]

theorem lexLe_zero_keys (p : Priority) {c : Cost} (hf : 0 ≤ c.fare) (hd : 0 ≤ c.distance) :
    lexLe (keys p ⟨0, 0, 0⟩) (keys p c) := by
  rw [keys_zero]
  have hc : keys p c = (0, 0, 0) + keys p c := by simp
  rw [hc]
  cases p <;>
    exact lexLe_add_nonneg_delta (by simp [keys, hf, hd]) (by simp [keys, hf, hd])
      (by simp [keys, hf, hd])

/-! ## Auxiliary characterizations for the search loop (C1, C9 support) -/

namespace Generalized

theorem cmpCost_self (p : Priority) (c : Cost) : cmpCost p c c = 0 := by
  cases p <;> simp [cmpCost]

theorem cmpCostOpt_neg_iff (p : Priority) (a : Cost) (ob : Option Cost) :
    cmpCostOpt p a ob < 0 ↔
      ob = none ∨ ∃ b, ob = some b ∧ lexLt (keys p a) (keys p b) := by
  cases ob with
  | none => simp [cmpCostOpt]
  | some b => simp [cmpCostOpt, cmpCost_neg_iff]

theorem cmpCostOpt_pos_iff (p : Priority) (a : Cost) (ob : Option Cost) :
    0 < cmpCostOpt p a ob ↔ ∃ b, ob = some b ∧ lexLt (keys p b) (keys p a) := by
  cases ob with
  | none => simp [cmpCostOpt]
  | some b => simp [cmpCostOpt, cmpCost_pos_iff]

theorem chain_cost_nonneg {adj : String → List Edge}
    (hadj : ∀ u, ∀ e ∈ adj u, 0 ≤ e.fare ∧ 0 ≤ e.distance) :
    ∀ (legs : List RouteLeg) (u v : String), chainVia adj u legs v = true →
      0 ≤ (costOfLegs legs).fare ∧ 0 ≤ (costOfLegs legs).distance := by
  intro legs
  induction legs with
  | nil => intro u v _; simp [costOfLegs]
  | cons leg rest ih =>
    intro u v h
    simp only [chainVia, Bool.and_eq_true, List.any_eq_true, beq_iff_eq] at h
    obtain ⟨⟨-, e, he, hconj⟩, h3⟩ := h
    obtain ⟨⟨hto, hef⟩, hed⟩ := hconj
    obtain ⟨hf, hd⟩ := hadj u e he
    obtain ⟨hrf, hrd⟩ := ih leg.to_ v h3
    simp only [costOfLegs, List.map_cons, List.sum_cons] at *
    rw [hef] at hf
    rw [hed] at hd
    exact ⟨by linarith, by linarith⟩

theorem buildAdj_nonneg (T : TrigOps) (coords : String → Option (ℚ × ℚ))
    (routesArr : List Route)
    (hf : ∀ r ∈ routesArr, 0 ≤ r.fare)
    (hd : ∀ r ∈ routesArr, ∀ d, r.distance = some d → 0 ≤ d)
    (hh : ∀ a b, 0 ≤ haversine T a b) :
    ∀ u, ∀ e ∈ buildAdj T coords routesArr u, 0 ≤ e.fare ∧ 0 ≤ e.distance := by
  intro u e he
  rw [buildAdj_two_edges_per_route] at he
  obtain ⟨r, hr, he⟩ := List.mem_flatMap.1 he
  have hdist : ∀ fc tc : ℚ × ℚ, 0 ≤ r.distance.getD (haversine T fc tc) := by
    intro fc tc
    cases hrd : r.distance with
    | none => simpa using hh fc tc
    | some d => simpa using hd r hr d hrd
  rcases h1 : coords r.from_ with - | fc <;> rcases h2 : coords r.to_ with - | tc <;>
      rw [h1, h2] at he
  · simp at he
  · simp at he
  · simp at he
  · dsimp only [] at he
    rw [List.mem_append] at he
    rcases he with he | he <;> split_ifs at he <;>
        (try simp only [List.mem_singleton] at he) <;>
      first
        | (subst he; exact ⟨hf r hr, hdist fc tc⟩)
        | simp at he

theorem OptInv_perm {p : Priority} {adj : String → List Edge} {start : String}
    {pq1 pq2 : List Node} {best : String → Option Cost} (hperm : pq1.Perm pq2)
    (h : OptInv p adj start ⟨pq1, best⟩) : OptInv p adj start ⟨pq2, best⟩ := by
  refine ⟨?_, ?_, ?_, h.bestStart⟩
  · intro n hn
    exact h.nodes n (hperm.mem_iff.2 hn)
  · intro n hn
    exact h.dominate n (hperm.mem_iff.2 hn)
  · intro v c hc
    rcases h.openOrRelaxed v c hc with ⟨n, hn, hrest⟩ | hrel
    · exact Or.inl ⟨n, hperm.mem_iff.1 hn, hrest⟩
    · exact Or.inr hrel

theorem relaxStep_pos {p : Priority} {cur : Node} {st : SearchState} {e : Edge}
    (hg : cmpCostOpt p (addC cur.cost e) (st.best e.to_) < 0) :
    relaxStep p cur st e =
      ⟨st.pq ++ [⟨e.to_, cur.path ++ [e.to_],
          cur.legs ++ [⟨cur.node, e.to_, e.fare, e.distance⟩], addC cur.cost e⟩],
        fun u => if u = e.to_ then some (addC cur.cost e) else st.best u⟩ := by
  unfold relaxStep
  dsimp only []
  rw [if_pos hg]

theorem relaxStep_neg {p : Priority} {cur : Node} {st : SearchState} {e : Edge}
    (hg : ¬ cmpCostOpt p (addC cur.cost e) (st.best e.to_) < 0) :
    relaxStep p cur st e = st := by
  unfold relaxStep
  dsimp only []
  rw [if_neg hg]

end Generalized

namespace Generalized

theorem relaxEdges_optInv_aux {p : Priority} {adj : String → List Edge} {start : String}
    {cur : Node}
    (hadj : ∀ u, ∀ e ∈ adj u, 0 ≤ e.fare ∧ 0 ≤ e.distance)
    (hcurI : NodeInv adj start cur)
    (hnnf : 0 ≤ cur.cost.fare) (hnnd : 0 ≤ cur.cost.distance) :
    ∀ (todo : List Edge), (∀ e ∈ todo, e ∈ adj cur.node) →
    ∀ (st' : SearchState),
      (∀ n ∈ st'.pq, NodeInv adj start n) →
      (∀ n ∈ st'.pq, ∃ b, st'.best n.node = some b ∧ lexLe (keys p b) (keys p n.cost)) →
      st'.best start = some ⟨0, 0, 0⟩ →
      st'.best cur.node = some cur.cost →
      (∀ v c, st'.best v = some c →
        (∃ n ∈ st'.pq, n.node = v ∧ n.cost = c) ∨
        (∀ e ∈ adj v, ∃ b, st'.best e.to_ = some b ∧ lexLe (keys p b) (keys p (addC c e))) ∨
        (v = cur.node ∧ c = cur.cost ∧
          ∀ e ∈ adj v, e ∉ todo →
            ∃ b, st'.best e.to_ = some b ∧ lexLe (keys p b) (keys p (addC c e)))) →
      OptInv p adj start (relaxEdges p cur todo st') := by
  intro todo
  induction todo with
  | nil =>
    intro _ st' h1 h2 h3 h4 h5
    refine ⟨h1, h2, ?_, h3⟩
    intro v c hc
    rcases h5 v c hc with hl | hr | ⟨hv, hcc, h6⟩
    · exact Or.inl hl
    · exact Or.inr hr
    · exact Or.inr (fun e he => h6 e he (List.not_mem_nil e))
  | cons e0 todo' ih =>
    intro hsub st' h1 h2 h3 h4 h5
    have hstep : relaxEdges p cur (e0 :: todo') st' =
        relaxEdges p cur todo' (relaxStep p cur st' e0) := rfl
    rw [hstep]
    have he0 : e0 ∈ adj cur.node := hsub e0 (List.mem_cons_self _ _)
    obtain ⟨he0f, he0d⟩ := hadj cur.node e0 he0
    have hcand_gt : lexLt (keys p cur.cost) (keys p (addC cur.cost e0)) :=
      lexLt_keys_addC p he0f he0d
    have hsub' : ∀ e ∈ todo', e ∈ adj cur.node :=
      fun e he => hsub e (List.mem_cons_of_mem _ he)
    by_cases hg : cmpCostOpt p (addC cur.cost e0) (st'.best e0.to_) < 0
    · -- improving: the best map is updated and the extended record is pushed
      have hstN := @relaxStep_pos p cur st' e0 hg
      apply ih hsub'
      · -- nodes
        have := relaxStep_nodes (p := p) hcurI he0 h1
        exact this
      · -- dominate
        intro n hn
        rw [hstN] at hn
        dsimp only [] at hn
        rw [List.mem_append] at hn
        rcases hn with hn | hn
        · obtain ⟨b, hb, hble⟩ := h2 n hn
          by_cases hnn : n.node = e0.to_
          · have hlt : lexLt (keys p (addC cur.cost e0)) (keys p b) := by
              rw [hnn] at hb
              rcases (cmpCostOpt_neg_iff p _ _).1 hg with hnone | ⟨b', hb', hlt⟩
              · rw [hnone] at hb; cases hb
              · rw [hb'] at hb
                injection hb with hbb
                exact hbb ▸ hlt
            refine ⟨addC cur.cost e0, ?_, ?_⟩
            · rw [hstN]; dsimp only []; rw [if_pos hnn]
            · exact lexLe_trans (lexLe_of_lt hlt) hble
          · refine ⟨b, ?_, hble⟩
            rw [hstN]; dsimp only []; rw [if_neg hnn]; exact hb
        · rw [List.mem_singleton] at hn
          subst hn
          refine ⟨addC cur.cost e0, ?_, lexLe_refl _⟩
          rw [hstN]; dsimp only []; rw [if_pos rfl]
      · -- bestStart
        by_cases hse : start = e0.to_
        · exfalso
          rw [← hse, h3] at hg
          have hlt := (cmpCost_neg_iff p _ _).1 (by simpa [cmpCostOpt] using hg)
          have hge := lexLe_zero_keys p (c := addC cur.cost e0)
            (by exact add_nonneg hnnf he0f) (by exact add_nonneg hnnd he0d)
          exact lexLt_irrefl _ (lexLt_of_le_of_lt hge hlt)
        · rw [hstN]; dsimp only []; rw [if_neg hse]; exact h3
      · -- best at the current node is untouched
        by_cases hcn : cur.node = e0.to_
        · exfalso
          rw [← hcn, h4] at hg
          have hlt := (cmpCost_neg_iff p _ _).1 (by simpa [cmpCostOpt] using hg)
          exact lexLt_asymm hcand_gt hlt
        · rw [hstN]; dsimp only []; rw [if_neg hcn]; exact h4
      · -- the open-or-relaxed disjunction with the smaller todo
        intro v c hc
        by_cases hv : v = e0.to_
        · subst hv
          have hcc : c = addC cur.cost e0 := by
            rw [hstN] at hc; dsimp only [] at hc; rw [if_pos rfl] at hc
            injection hc with h
            exact h.symm
          subst hcc
          refine Or.inl ⟨⟨e0.to_, cur.path ++ [e0.to_],
            cur.legs ++ [⟨cur.node, e0.to_, e0.fare, e0.distance⟩], addC cur.cost e0⟩,
            ?_, rfl, rfl⟩
          rw [hstN]; dsimp only []
          exact List.mem_append_right _ (List.mem_singleton_self _)
        · have hc' : st'.best v = some c := by
            rw [hstN] at hc; dsimp only [] at hc; rw [if_neg hv] at hc; exact hc
          have hupd : ∀ x : String, ∀ b, st'.best x = some b →
              ∃ b', (relaxStep p cur st' e0).best x = some b' ∧
                lexLe (keys p b') (keys p b) := by
            intro x b hb
            by_cases hx : x = e0.to_
            · have hlt : lexLt (keys p (addC cur.cost e0)) (keys p b) := by
                rw [hx] at hb
                rcases (cmpCostOpt_neg_iff p _ _).1 hg with hnone | ⟨b', hb', hlt⟩
                · rw [hnone] at hb; cases hb
                · rw [hb'] at hb
                  injection hb with hbb
                  exact hbb ▸ hlt
              refine ⟨addC cur.cost e0, ?_, lexLe_of_lt hlt⟩
              rw [hstN]; dsimp only []; rw [if_pos hx]
            · refine ⟨b, ?_, lexLe_refl _⟩
              rw [hstN]; dsimp only []; rw [if_neg hx]; exact hb
          rcases h5 v c hc' with ⟨n, hn, hnode, hcost⟩ | hr | ⟨hveq, hceq, h6⟩
          · refine Or.inl ⟨n, ?_, hnode, hcost⟩
            rw [hstN]; dsimp only []
            exact List.mem_append_left _ hn
          · refine Or.inr (Or.inl ?_)
            intro e he
            obtain ⟨b, hb, hble⟩ := hr e he
            obtain ⟨b', hb', hble'⟩ := hupd e.to_ b hb
            exact ⟨b', hb', lexLe_trans hble' hble⟩
          · refine Or.inr (Or.inr ⟨hveq, hceq, ?_⟩)
            intro e he hnotin
            by_cases hee : e = e0
            · refine ⟨addC cur.cost e0, ?_, ?_⟩
              · rw [hstN]; dsimp only []; rw [hee]; rw [if_pos rfl]
              · rw [hceq, hee]
                exact lexLe_refl _
            · have h6' := h6 e he (by
                intro hmem
                rcases List.mem_cons.1 hmem with h | h
                · exact hee h
                · exact hnotin h)
              obtain ⟨b, hb, hble⟩ := h6'
              obtain ⟨b', hb', hble'⟩ := hupd e.to_ b hb
              exact ⟨b', hb', lexLe_trans hble' hble⟩
    · -- not improving: the state is unchanged, only the processed set shrinks
      rw [relaxStep_neg hg]
      apply ih hsub' st' h1 h2 h3 h4
      intro v c hc
      rcases h5 v c hc with hl | hr | ⟨hveq, hceq, h6⟩
      · exact Or.inl hl
      · exact Or.inr (Or.inl hr)
      · refine Or.inr (Or.inr ⟨hveq, hceq, ?_⟩)
        intro e he hnotin
        by_cases hee : e = e0
        · rw [hee, hceq]
          rcases hb : st'.best e0.to_ with - | b
          · exfalso
            apply hg
            rw [hb]
            simp [cmpCostOpt]
          · have hnlt : ¬ lexLt (keys p (addC cur.cost e0)) (keys p b) := by
              intro hlt
              exact hg ((cmpCostOpt_neg_iff p _ _).2 (Or.inr ⟨b, hb, hlt⟩))
            exact ⟨b, rfl, not_lexLt_iff.1 hnlt⟩
        · exact h6 e he (by
            intro hmem
            rcases List.mem_cons.1 hmem with h | h
            · exact hee h
            · exact hnotin h)

end Generalized

namespace Generalized

theorem lexLe_keys_add_of_nonneg (p : Priority) {c : Cost} {f d : ℚ} {s : ℕ}
    (hf : 0 ≤ f) (hd : 0 ≤ d) :
    lexLe (keys p c) (keys p ⟨c.fare + f, c.stops + s, c.distance + d⟩) := by
  rw [keys_add]
  cases p
  · exact lexLe_add_nonneg_delta hf (Nat.cast_nonneg s) hd
  · exact lexLe_add_nonneg_delta hd hf (Nat.cast_nonneg s)
  · exact lexLe_add_nonneg_delta (Nat.cast_nonneg s) hf hd

theorem cover {p : Priority} {adj : String → List Edge} {start : String} {st : SearchState}
    (hadj : ∀ u, ∀ e ∈ adj u, 0 ≤ e.fare ∧ 0 ≤ e.distance)
    (hinv : OptInv p adj start st) :
    ∀ (legs : List RouteLeg) (u v : String) (c : Cost),
      chainVia adj u legs v = true →
      (∃ b, st.best u = some b ∧ lexLe (keys p b) (keys p c)) →
      (∃ n ∈ st.pq, lexLe (keys p n.cost)
          (keys p ⟨c.fare + (costOfLegs legs).fare, c.stops + (costOfLegs legs).stops,
            c.distance + (costOfLegs legs).distance⟩)) ∨
      (∃ b, st.best v = some b ∧ lexLe (keys p b)
          (keys p ⟨c.fare + (costOfLegs legs).fare, c.stops + (costOfLegs legs).stops,
            c.distance + (costOfLegs legs).distance⟩)) := by
  intro legs
  induction legs with
  | nil =>
    intro u v c hchain hbase
    have huv : u = v := by simpa [chainVia] using hchain
    subst huv
    obtain ⟨b, hb, hble⟩ := hbase
    refine Or.inr ⟨b, hb, ?_⟩
    have hc0 : (⟨c.fare + (costOfLegs []).fare, c.stops + (costOfLegs []).stops,
        c.distance + (costOfLegs []).distance⟩ : Cost) = c := by
      simp [costOfLegs]
    rw [hc0]
    exact hble
  | cons leg rest ih =>
    intro u v c hchain hbase
    have hchain' := hchain
    simp only [chainVia, Bool.and_eq_true, List.any_eq_true, beq_iff_eq] at hchain'
    obtain ⟨⟨hfrom, e, he, ⟨hto, hef⟩, hed⟩, hrest⟩ := hchain'
    obtain ⟨b, hb, hble⟩ := hbase
    have hnn := chain_cost_nonneg hadj (leg :: rest) u v hchain
    rcases hinv.openOrRelaxed u b hb with ⟨n, hn, hnode, hcost⟩ | hrel
    · refine Or.inl ⟨n, hn, ?_⟩
      have h1 : lexLe (keys p n.cost) (keys p c) := by
        rw [hcost]
        exact hble
      exact lexLe_trans h1 (lexLe_keys_add_of_nonneg p hnn.1 hnn.2)
    · obtain ⟨b', hb', hble'⟩ := hrel e he
      have hc' : addC c e =
          ⟨c.fare + leg.fare, c.stops + 1, c.distance + leg.distance⟩ := by
        simp [addC, hef, hed]
      have hb'le : lexLe (keys p b')
          (keys p (⟨c.fare + leg.fare, c.stops + 1, c.distance + leg.distance⟩ : Cost)) := by
        rw [← hc']
        exact lexLe_trans hble' (lexLe_keys_addC_mono p e hble)
      have hbase' : ∃ b'', st.best leg.to_ = some b'' ∧ lexLe (keys p b'')
          (keys p (⟨c.fare + leg.fare, c.stops + 1, c.distance + leg.distance⟩ : Cost)) := by
        refine ⟨b', ?_, hb'le⟩
        rw [← hto]
        exact hb'
      have hres := ih leg.to_ v
        (⟨c.fare + leg.fare, c.stops + 1, c.distance + leg.distance⟩ : Cost) hrest hbase'
      have htot : (⟨(c.fare + leg.fare) + (costOfLegs rest).fare,
          (c.stops + 1) + (costOfLegs rest).stops,
          (c.distance + leg.distance) + (costOfLegs rest).distance⟩ : Cost) =
          ⟨c.fare + (costOfLegs (leg :: rest)).fare,
            c.stops + (costOfLegs (leg :: rest)).stops,
            c.distance + (costOfLegs (leg :: rest)).distance⟩ := by
      
        simp only [costOfLegs, List.map_cons, List.sum_cons, List.length_cons, Cost.mk.injEq]
        refine ⟨by ring, by omega, by ring⟩
      rw [htot] at hres
      exact hres

theorem sortRel_total (p : Priority) :
    ∀ a b : Node, cmpCost p a.cost b.cost ≤ 0 ∨ cmpCost p b.cost a.cost ≤ 0 := by
  intro a b
  rcases lexLt_trichotomy (keys p a.cost) (keys p b.cost) with h | h | h
  · exact Or.inl ((cmpCost_nonpos_iff p _ _).2 (lexLe_of_lt h))
  · exact Or.inl ((cmpCost_nonpos_iff p _ _).2 (Or.inr h))
  · exact Or.inr ((cmpCost_nonpos_iff p _ _).2 (lexLe_of_lt h))

theorem sortRel_trans (p : Priority) :
    ∀ a b c : Node, cmpCost p a.cost b.cost ≤ 0 → cmpCost p b.cost c.cost ≤ 0 →
      cmpCost p a.cost c.cost ≤ 0 := by
  intro a b c hab hbc
  exact (cmpCost_nonpos_iff p _ _).2
    (lexLe_trans ((cmpCost_nonpos_iff p _ _).1 hab) ((cmpCost_nonpos_iff p _ _).1 hbc))

theorem searchLoop_optimal {p : Priority} {adj : String → List Edge} {start end_ : String}
    (hadj : ∀ u, ∀ e ∈ adj u, 0 ≤ e.fare ∧ 0 ≤ e.distance) :
    ∀ (fuel : ℕ) (st : SearchState) (res : PathResult),
      OptInv p adj start st →
      searchLoop p adj end_ fuel st = some (some res) →
      ∀ legs, chainVia adj start legs end_ = true →
      lexLe (keys p ⟨res.totalFare, res.totalStops, res.totalDistance⟩)
        (keys p (costOfLegs legs)) := by
  intro fuel
  induction fuel with
  | zero => intro st res _ h; simp [searchLoop] at h
  | succ fuel ih =>
    intro st res hinv h legs hlegs
    rw [searchLoop] at h
    rcases hsort : List.insertionSort
        (fun A B : Node => cmpCost p A.cost B.cost ≤ 0) st.pq with - | ⟨cur, rest⟩
    · rw [hsort] at h
      simp at h
    · rw [hsort] at h
      dsimp only [] at h
      letI : IsTotal Node (fun A B : Node => cmpCost p A.cost B.cost ≤ 0) :=
        ⟨sortRel_total p⟩
      letI : IsTrans Node (fun A B : Node => cmpCost p A.cost B.cost ≤ 0) :=
        ⟨sortRel_trans p⟩
      have hsorted := List.sorted_insertionSort
        (fun A B : Node => cmpCost p A.cost B.cost ≤ 0) st.pq
      rw [hsort] at hsorted
      have hmin : ∀ n ∈ rest, cmpCost p cur.cost n.cost ≤ 0 :=
        List.rel_of_sorted_cons hsorted
      have hperm : st.pq.Perm (cur :: rest) := by
        rw [← hsort]
        exact (List.perm_insertionSort _ st.pq).symm
      have hinvS : OptInv p adj start ⟨cur :: rest, st.best⟩ :=
        OptInv_perm hperm hinv
      split_ifs at h with hskip hgoal
      · -- superseded duplicate: drop it
        refine ih ⟨rest, st.best⟩ res ?_ h legs hlegs
        refine ⟨?_, ?_, ?_, hinvS.bestStart⟩
        · exact fun n hn => hinvS.nodes n (List.mem_cons_of_mem cur hn)
        · exact fun n hn => hinvS.dominate n (List.mem_cons_of_mem cur hn)
        · intro v c hc
          rcases hinvS.openOrRelaxed v c hc with ⟨n, hn, hnode, hcost⟩ | hrel
          · rcases List.mem_cons.1 hn with rfl | hn'
            · exfalso
              rw [← hnode, ← hcost] at hc
              rw [hc] at hskip
              simp [cmpCostOpt, cmpCost_self] at hskip
            · exact Or.inl ⟨n, hn', hnode, hcost⟩
          · exact Or.inr hrel
      · -- the goal was extracted: the returned label beats every path
        have hres : res = mkResult cur := by simpa using h.symm
        have hcover := cover hadj hinvS legs start end_ ⟨0, 0, 0⟩ hlegs
          ⟨⟨0, 0, 0⟩, hinvS.bestStart, lexLe_refl _⟩
        have hkey : (⟨res.totalFare, res.totalStops, res.totalDistance⟩ : Cost) = cur.cost := by
          rw [hres]
          rfl
        rw [hkey]
        rcases hcover with ⟨n, hn, hle⟩ | ⟨b, hb, hle⟩
        · have hle' : lexLe (keys p n.cost) (keys p (costOfLegs legs)) := by
            have h0 : (⟨(0 : ℚ) + (costOfLegs legs).fare,
                0 + (costOfLegs legs).stops,
                (0 : ℚ) + (costOfLegs legs).distance⟩ : Cost) = costOfLegs legs := by
              simp
            rw [← h0]
            exact hle
          rcases List.mem_cons.1 hn with rfl | hn'
          · exact hle'
          · exact lexLe_trans ((cmpCost_nonpos_iff p _ _).1 (hmin n hn')) hle'
        · have hle' : lexLe (keys p b) (keys p (costOfLegs legs)) := by
            have h0 : (⟨(0 : ℚ) + (costOfLegs legs).fare,
                0 + (costOfLegs legs).stops,
                (0 : ℚ) + (costOfLegs legs).distance⟩ : Cost) = costOfLegs legs := by
              simp
            rw [← h0]
            exact hle
          have hcurb : lexLe (keys p cur.cost) (keys p b) := by
            rw [← hgoal] at hb
            rw [hb] at hskip
            simp only [cmpCostOpt, not_lt] at hskip
            exact (cmpCost_nonpos_iff p _ _).1 hskip
          exact lexLe_trans hcurb hle'
      · -- expand the current record
        have hcurI : NodeInv adj start cur := hinvS.nodes cur (List.mem_cons_self _ _)
        have hnn : 0 ≤ cur.cost.fare ∧ 0 ≤ cur.cost.distance := by
          obtain ⟨-, hchain, hcost⟩ := hcurI
          rw [hcost]
          exact chain_cost_nonneg hadj cur.legs start cur.node hchain
        have hb4 : st.best cur.node = some cur.cost := by
          obtain ⟨b, hb, hble⟩ := hinvS.dominate cur (List.mem_cons_self _ _)
          rw [hb] at hskip
          simp only [cmpCostOpt, not_lt] at hskip
          have h1 := (cmpCost_nonpos_iff p _ _).1 hskip
          have hbeq : b = cur.cost := keys_inj p (lexLe_antisymm hble h1)
          rw [hb, hbeq]
        refine ih _ res ?_ h legs hlegs
        apply relaxEdges_optInv_aux hadj hcurI hnn.1 hnn.2 (adj cur.node)
          (fun _ hx => hx)
        · exact fun n hn => hinvS.nodes n (List.mem_cons_of_mem cur hn)
        · exact fun n hn => hinvS.dominate n (List.mem_cons_of_mem cur hn)
        · exact hinvS.bestStart
        · exact hb4
        · intro v c hc
          rcases hinvS.openOrRelaxed v c hc with ⟨n, hn, hnode, hcost⟩ | hrel
          · rcases List.mem_cons.1 hn with rfl | hn'
            · refine Or.inr (Or.inr ⟨hnode.symm, hcost.symm, ?_⟩)
              intro e he hne
              rw [← hnode] at he
              exact absurd he hne
            · exact Or.inl ⟨n, hn', hnode, hcost⟩
          · exact Or.inr (Or.inl hrel)

end Generalized

/-- C1: under the data-model invariants (non-negative fares, non-negative
declared distances, non-negative haversine values), whenever `findBestPath`
returns a result, no alternative path between start and end in the graph
built from the same inputs has a strictly smaller key tuple, under the active
priority's lexicographic key order, than the returned
(totalFare, totalStops, totalDistance). -/
theorem findBestPath_optimal (T : TrigOps) (stopsArr : List Stop)
    (routesArr : List Route) (start end_ : String) (p : Priority) (fuel : ℕ)
    (res : PathResult)
    (hf : ∀ r ∈ routesArr, 0 ≤ r.fare)
    (hd : ∀ r ∈ routesArr, ∀ d, r.distance = some d → 0 ≤ d)
    (hh : ∀ a b, 0 ≤ haversine T a b)
    (hres : Generalized.findBestPath T stopsArr routesArr start end_ p fuel =
      some (some res))
    (legs : List RouteLeg)
    (hlegs : chainVia (Generalized.buildAdj T (buildCoords stopsArr) routesArr)
      start legs end_ = true) :
    ¬ lexLt (keys p (costOfLegs legs))
        (keys p ⟨res.totalFare, res.totalStops, res.totalDistance⟩) := by
  have hadj := Generalized.buildAdj_nonneg T (buildCoords stopsArr) routesArr hf hd hh
  rw [not_lexLt_iff]
  unfold Generalized.findBestPath at hres
  split_ifs at hres with hse
  · obtain rfl : res = ⟨[start], [], 0, 0, 0⟩ := by simpa using hres.symm
    have hnn := Generalized.chain_cost_nonneg hadj legs start end_ hlegs
    exact lexLe_zero_keys p hnn.1 hnn.2
  · refine Generalized.searchLoop_optimal hadj fuel _ res ?_ hres legs hlegs
    refine ⟨Generalized.seed_nodes _ start, ?_, ?_, by simp⟩
    · intro n hn
      rw [List.mem_singleton] at hn
      subst hn
      exact ⟨⟨0, 0, 0⟩, by simp, lexLe_refl _⟩
    · intro v c hc
      dsimp only [] at hc
      by_cases hv : v = start
      · subst hv
        rw [if_pos rfl] at hc
        injection hc with hc
        exact Or.inl ⟨⟨v, [v], [], ⟨0, 0, 0⟩⟩, List.mem_singleton_self _, rfl, hc⟩
      · rw [if_neg hv] at hc
        cases hc

/-- Witness for C1 at a concrete input, with a concrete alternative path. -/
theorem findBestPath_optimal_witness :
    (∀ r ∈ [(⟨"A", "B", 1, some 2⟩ : Route)], 0 ≤ r.fare) ∧
    (∀ r ∈ [(⟨"A", "B", 1, some 2⟩ : Route)], ∀ d, r.distance = some d → 0 ≤ d) ∧
    (∀ a b, 0 ≤ haversine Tzero a b) ∧
    Generalized.findBestPath Tzero [⟨"A", (0, 0)⟩, ⟨"B", (0, 1)⟩] [⟨"A", "B", 1, some 2⟩]
        "A" "B" .fare 3 = some (some ⟨["A", "B"], [⟨"A", "B", 1, 2⟩], 1, 2, 1⟩) ∧
    chainVia (Generalized.buildAdj Tzero
        (buildCoords [⟨"A", (0, 0)⟩, ⟨"B", (0, 1)⟩]) [⟨"A", "B", 1, some 2⟩])
      "A" [⟨"A", "B", 1, 2⟩] "B" = true ∧
    ¬ lexLt (keys .fare (costOfLegs [⟨"A", "B", 1, 2⟩]))
        (keys .fare ⟨(⟨["A", "B"], [⟨"A", "B", 1, 2⟩], 1, 2, 1⟩ : PathResult).totalFare,
          (⟨["A", "B"], [⟨"A", "B", 1, 2⟩], 1, 2, 1⟩ : PathResult).totalStops,
          (⟨["A", "B"], [⟨"A", "B", 1, 2⟩], 1, 2, 1⟩ : PathResult).totalDistance⟩) := by
  have hh : ∀ a b, 0 ≤ haversine Tzero a b := by
    intro a b
    simp [haversine, Tzero]
  have heval : Generalized.findBestPath Tzero [⟨"A", (0, 0)⟩, ⟨"B", (0, 1)⟩]
      [⟨"A", "B", 1, some 2⟩] "A" "B" .fare 3 =
      some (some ⟨["A", "B"], [⟨"A", "B", 1, 2⟩], 1, 2, 1⟩) := by
    norm_num +decide [Generalized.findBestPath, Generalized.searchLoop,
      Generalized.relaxEdges, Generalized.relaxStep, Generalized.cmpCost,
      Generalized.cmpCostOpt, Generalized.mkResult, Generalized.addC,
      Generalized.buildAdj, buildCoords, List.insertionSort, List.orderedInsert]
  refine ⟨by decide, by decide, hh, heval, by decide, ?_⟩
  exact findBestPath_optimal Tzero [⟨"A", (0, 0)⟩, ⟨"B", (0, 1)⟩] [⟨"A", "B", 1, some 2⟩]
    "A" "B" .fare 3 ⟨["A", "B"], [⟨"A", "B", 1, 2⟩], 1, 2, 1⟩
    (by decide) (by decide) hh heval [⟨"A", "B", 1, 2⟩] (by decide)

/-! ## Termination of the search loop (C9 support) -/

namespace Generalized

theorem relax_term_aux {p : Priority} {adj : String → List Edge} {allN : Finset String}
    {C : Finset String} {cur : Node}
    (hadj : ∀ u, ∀ e ∈ adj u, 0 ≤ e.fare ∧ 0 ≤ e.distance)
    (hT : ∀ u, ∀ e ∈ adj u, e.to_ ∈ allN) :
    ∀ (todo : List Edge), (∀ e ∈ todo, e ∈ adj cur.node) →
    ∀ (st' : SearchState),
      (∀ n ∈ st'.pq, n.node ∈ allN) →
      (∀ n ∈ st'.pq, lexLe (keys p cur.cost) (keys p n.cost)) →
      (∀ v ∈ C, ∃ c, st'.best v = some c ∧ lexLe (keys p c) (keys p cur.cost) ∧
        ∀ n ∈ st'.pq, n.node = v → lexLt (keys p c) (keys p n.cost)) →
      st'.pq.Pairwise (fun n₁ n₂ => n₁.node = n₂.node → n₁.cost ≠ n₂.cost) →
      (∀ n ∈ st'.pq, ∃ b, st'.best n.node = some b ∧ lexLe (keys p b) (keys p n.cost)) →
      st'.best cur.node = some cur.cost →
      ((∀ n ∈ (relaxEdges p cur todo st').pq, n.node ∈ allN) ∧
       (∀ n ∈ (relaxEdges p cur todo st').pq, lexLe (keys p cur.cost) (keys p n.cost)) ∧
       (∀ v ∈ C, ∃ c, (relaxEdges p cur todo st').best v = some c ∧
          lexLe (keys p c) (keys p cur.cost) ∧
          ∀ n ∈ (relaxEdges p cur todo st').pq, n.node = v →
            lexLt (keys p c) (keys p n.cost)) ∧
       (relaxEdges p cur todo st').pq.Pairwise
          (fun n₁ n₂ => n₁.node = n₂.node → n₁.cost ≠ n₂.cost) ∧
       (∀ n ∈ (relaxEdges p cur todo st').pq, ∃ b,
          (relaxEdges p cur todo st').best n.node = some b ∧
            lexLe (keys p b) (keys p n.cost)) ∧
       (relaxEdges p cur todo st').best cur.node = some cur.cost ∧
       (relaxEdges p cur todo st').pq.length ≤ st'.pq.length + todo.length) := by
  intro todo
  induction todo with
  | nil =>
    intro _ st' h1 h2 h3 h4 h5 h6
    exact ⟨h1, h2, h3, h4, h5, h6, by simp [relaxEdges]⟩
  | cons e0 todo' ih =>
    intro hsub st' h1 h2 h3 h4 h5 h6
    have hstep : relaxEdges p cur (e0 :: todo') st' =
        relaxEdges p cur todo' (relaxStep p cur st' e0) := rfl
    rw [hstep]
    have he0 : e0 ∈ adj cur.node := hsub e0 (List.mem_cons_self _ _)
    obtain ⟨he0f, he0d⟩ := hadj cur.node e0 he0
    have hcand_gt : lexLt (keys p cur.cost) (keys p (addC cur.cost e0)) :=
      lexLt_keys_addC p he0f he0d
    have hsub' : ∀ e ∈ todo', e ∈ adj cur.node :=
      fun e he => hsub e (List.mem_cons_of_mem _ he)
    by_cases hg : cmpCostOpt p (addC cur.cost e0) (st'.best e0.to_) < 0
    · have hstN := @relaxStep_pos p cur st' e0 hg
      -- the improving update cannot hit the current node or a closed node
      have hlt_of_best : ∀ b, st'.best e0.to_ = some b →
          lexLt (keys p (addC cur.cost e0)) (keys p b) := by
        intro b hb
        rcases (cmpCostOpt_neg_iff p _ _).1 hg with hnone | ⟨b', hb', hlt⟩
        · rw [hnone] at hb; cases hb
        · rw [hb'] at hb
          injection hb with hbb
          exact hbb ▸ hlt
      have hne_cur : e0.to_ ≠ cur.node := by
        intro heq
        rw [heq] at hlt_of_best
        have := hlt_of_best cur.cost h6
        exact lexLt_asymm hcand_gt this
      have hres := ih hsub' (relaxStep p cur st' e0) ?_ ?_ ?_ ?_ ?_ ?_
      · obtain ⟨r1, r2, r3, r4, r5, r6, r7⟩ := hres
        refine ⟨r1, r2, r3, r4, r5, r6, ?_⟩
        calc (relaxEdges p cur todo' (relaxStep p cur st' e0)).pq.length
            ≤ (relaxStep p cur st' e0).pq.length + todo'.length := r7
          _ = st'.pq.length + 1 + todo'.length := by rw [hstN]; simp
          _ = st'.pq.length + (e0 :: todo').length := by simp only [List.length_cons]; omega
      · -- membership in allN
        intro n hn
        rw [hstN] at hn
        dsimp only [] at hn
        rw [List.mem_append] at hn
        rcases hn with hn | hn
        · exact h1 n hn
        · rw [List.mem_singleton] at hn
          subst hn
          exact hT cur.node e0 he0
      · -- lower bound by the current cost
        intro n hn
        rw [hstN] at hn
        dsimp only [] at hn
        rw [List.mem_append] at hn
        rcases hn with hn | hn
        · exact h2 n hn
        · rw [List.mem_singleton] at hn
          subst hn
          exact lexLe_of_lt hcand_gt
      · -- closed vertices stay closed
        intro v hv
        obtain ⟨c, hc, hcle, hstrict⟩ := h3 v hv
        have hvne : v ≠ e0.to_ := by
          intro heq
          rw [← heq] at hlt_of_best
          have hlt := hlt_of_best c hc
          exact lexLt_irrefl _
            (lexLt_of_lt_of_le hlt (lexLe_trans hcle (lexLe_of_lt hcand_gt)))
        refine ⟨c, ?_, hcle, ?_⟩
        · rw [hstN]; dsimp only []; rw [if_neg hvne]; exact hc
        · intro n hn hnode
          rw [hstN] at hn
          dsimp only [] at hn
          rw [List.mem_append] at hn
          rcases hn with hn | hn
          · exact hstrict n hn hnode
          · rw [List.mem_singleton] at hn
            subst hn
            exact absurd hnode.symm hvne
      · -- pairwise distinct costs per node
        rw [hstN]
        dsimp only []
        rw [List.pairwise_append]
        refine ⟨h4, by simp, ?_⟩
        intro a ha b hb
        rw [List.mem_singleton] at hb
        subst hb
        intro hnode heq
        obtain ⟨b', hb', hble⟩ := h5 a ha
        rw [hnode] at hb'
        have hlt := hlt_of_best b' hb'
        have : lexLt (keys p (addC cur.cost e0)) (keys p a.cost) :=
          lexLt_of_lt_of_le hlt hble
        rw [heq] at this
        exact lexLt_irrefl _ this
      · -- entries dominate their best
        intro n hn
        rw [hstN] at hn
        dsimp only [] at hn
        rw [List.mem_append] at hn
        rcases hn with hn | hn
        · obtain ⟨b, hb, hble⟩ := h5 n hn
          by_cases hnn : n.node = e0.to_
          · have hlt : lexLt (keys p (addC cur.cost e0)) (keys p b) := by
              apply hlt_of_best
              rw [← hnn]
              exact hb
            refine ⟨addC cur.cost e0, ?_, lexLe_trans (lexLe_of_lt hlt) hble⟩
            rw [hstN]; dsimp only []; rw [if_pos hnn]
          · refine ⟨b, ?_, hble⟩
            rw [hstN]; dsimp only []; rw [if_neg hnn]; exact hb
        · rw [List.mem_singleton] at hn
          subst hn
          refine ⟨addC cur.cost e0, ?_, lexLe_refl _⟩
          rw [hstN]; dsimp only []; rw [if_pos rfl]
      · -- the current node's best entry is untouched
        rw [hstN]; dsimp only []
        rw [if_neg (fun h => hne_cur h.symm)]
        exact h6
    · rw [relaxStep_neg hg]
      have hres := ih hsub' st' h1 h2 h3 h4 h5 h6
      obtain ⟨r1, r2, r3, r4, r5, r6, r7⟩ := hres
      refine ⟨r1, r2, r3, r4, r5, r6, ?_⟩
      calc (relaxEdges p cur todo' st').pq.length
          ≤ st'.pq.length + todo'.length := r7
        _ ≤ st'.pq.length + (e0 :: todo').length := by simp only [List.length_cons]; omega

end Generalized

namespace Generalized

theorem searchLoop_no_fuel_out {p : Priority} {adj : String → List Edge}
    {allN : Finset String} {end_ : String}
    (hadj : ∀ u, ∀ e ∈ adj u, 0 ≤ e.fare ∧ 0 ≤ e.distance)
    (hT : ∀ u, ∀ e ∈ adj u, e.to_ ∈ allN) :
    ∀ (fuel : ℕ) (st : SearchState) (C : Finset String) (L : Cost),
      TermInv p adj allN C L st →
      phi adj allN C st < fuel →
      searchLoop p adj end_ fuel st ≠ none := by
  intro fuel
  induction fuel with
  | zero =>
    intro st C L _ hphi
    omega
  | succ fuel ih =>
    intro st C L hinv hphi
    rw [searchLoop]
    rcases hsort : List.insertionSort
        (fun A B : Node => cmpCost p A.cost B.cost ≤ 0) st.pq with - | ⟨cur, rest⟩
    · simp
    · dsimp only []
      letI : IsTotal Node (fun A B : Node => cmpCost p A.cost B.cost ≤ 0) :=
        ⟨sortRel_total p⟩
      letI : IsTrans Node (fun A B : Node => cmpCost p A.cost B.cost ≤ 0) :=
        ⟨sortRel_trans p⟩
      have hsorted := List.sorted_insertionSort
        (fun A B : Node => cmpCost p A.cost B.cost ≤ 0) st.pq
      rw [hsort] at hsorted
      have hmin : ∀ n ∈ rest, lexLe (keys p cur.cost) (keys p n.cost) := by
        intro n hn
        exact (cmpCost_nonpos_iff p _ _).1 (List.rel_of_sorted_cons hsorted n hn)
      have hperm : st.pq.Perm (cur :: rest) := by
        rw [← hsort]
        exact (List.perm_insertionSort _ st.pq).symm
      have hlen : st.pq.length = rest.length + 1 := by
        have := hperm.length_eq
        simpa using this
      have hsymm : ∀ {a b : Node}, (a.node = b.node → a.cost ≠ b.cost) →
          (b.node = a.node → b.cost ≠ a.cost) := by
        intro a b h hab hc
        exact h hab.symm hc.symm
      have tinAll : ∀ n ∈ cur :: rest, n.node ∈ allN :=
        fun n hn => hinv.inAll n (hperm.mem_iff.2 hn)
      have tlower : ∀ n ∈ cur :: rest, lexLe (keys p L) (keys p n.cost) :=
        fun n hn => hinv.lower n (hperm.mem_iff.2 hn)
      have tdistinct : (cur :: rest).Pairwise
          (fun n₁ n₂ => n₁.node = n₂.node → n₁.cost ≠ n₂.cost) :=
        (hperm.pairwise_iff hsymm).1 hinv.distinct
      have tdominate : ∀ n ∈ cur :: rest, ∃ b, st.best n.node = some b ∧
          lexLe (keys p b) (keys p n.cost) :=
        fun n hn => hinv.dominate n (hperm.mem_iff.2 hn)
      have tclosed : ∀ v ∈ C, ∃ c, st.best v = some c ∧ lexLe (keys p c) (keys p L) ∧
          ∀ n ∈ cur :: rest, n.node = v → lexLt (keys p c) (keys p n.cost) := by
        intro v hv
        obtain ⟨c, hc, hcle, hstrict⟩ := hinv.closed v hv
        exact ⟨c, hc, hcle, fun n hn hnode => hstrict n (hperm.mem_iff.2 hn) hnode⟩
      have hLcur : lexLe (keys p L) (keys p cur.cost) :=
        tlower cur (List.mem_cons_self _ _)
      split_ifs with hskip hgoal
      · -- superseded duplicate
        apply ih ⟨rest, st.best⟩ C cur.cost
        · refine ⟨?_, hmin, ?_, tdistinct.of_cons, ?_⟩
          · exact fun n hn => tinAll n (List.mem_cons_of_mem cur hn)
          · intro v hv
            obtain ⟨c, hc, hcle, hstrict⟩ := tclosed v hv
            exact ⟨c, hc, lexLe_trans hcle hLcur,
              fun n hn hnode => hstrict n (List.mem_cons_of_mem cur hn) hnode⟩
          · exact fun n hn => tdominate n (List.mem_cons_of_mem cur hn)
        · unfold phi at hphi ⊢
          dsimp only [] at hphi ⊢
          omega
      · simp
      · -- expand
        have hnotC : cur.node ∉ C := by
          intro hvC
          obtain ⟨c, hc, -, hstrict⟩ := tclosed cur.node hvC
          have hlt := hstrict cur (List.mem_cons_self _ _) rfl
          rw [hc] at hskip
          simp only [cmpCostOpt, not_lt] at hskip
          exact lexLt_irrefl _ (lexLt_of_le_of_lt ((cmpCost_nonpos_iff p _ _).1 hskip) hlt)
        have hb6 : st.best cur.node = some cur.cost := by
          obtain ⟨b, hb, hble⟩ := tdominate cur (List.mem_cons_self _ _)
          rw [hb] at hskip
          simp only [cmpCostOpt, not_lt] at hskip
          have h1 := (cmpCost_nonpos_iff p _ _).1 hskip
          have hbeq : b = cur.cost := keys_inj p (lexLe_antisymm hble h1)
          rw [hb, hbeq]
        have hrelax := @relax_term_aux p _ _ (insert cur.node C) cur
          hadj hT (adj cur.node) (fun _ hx => hx) ⟨rest, st.best⟩
          (fun n hn => tinAll n (List.mem_cons_of_mem cur hn))
          hmin
          (by
            intro v hv
            rcases Finset.mem_insert.1 hv with rfl | hv'
            · refine ⟨cur.cost, hb6, lexLe_refl _, ?_⟩
              intro n hn hnode
              have hrel := (List.pairwise_cons.1 tdistinct).1 n hn
              have hne := hrel hnode.symm
              rcases hmin n hn with hlt | heqk
              · exact hlt
              · exact absurd (keys_inj p heqk) hne
            · obtain ⟨c, hc, hcle, hstrict⟩ := tclosed v hv'
              exact ⟨c, hc, lexLe_trans hcle hLcur,
                fun n hn hnode => hstrict n (List.mem_cons_of_mem cur hn) hnode⟩)
          tdistinct.of_cons
          (fun n hn => tdominate n (List.mem_cons_of_mem cur hn))
          hb6
        obtain ⟨r1, r2, r3, r4, r5, r6, r7⟩ := hrelax
        apply ih _ (insert cur.node C) cur.cost ⟨r1, r2, r3, r4, r5⟩
        have hcurIn : cur.node ∈ allN := tinAll cur (List.mem_cons_self _ _)
        have hcurSd : cur.node ∈ allN \ C := Finset.mem_sdiff.2 ⟨hcurIn, hnotC⟩
        have hsum : ∑ v ∈ allN \ C, (adj v).length =
            (adj cur.node).length + ∑ v ∈ (allN \ C).erase cur.node, (adj v).length :=
          (Finset.add_sum_erase _ _ hcurSd).symm
        have hsd : allN \ insert cur.node C = (allN \ C).erase cur.node := by
          ext x
          simp [Finset.mem_sdiff, Finset.mem_erase, Finset.mem_insert]
          tauto
        unfold phi at hphi ⊢
        dsimp only [] at r7 ⊢
        rw [hsd]
        have hr7 : (relaxEdges p cur (adj cur.node)
            ⟨rest, st.best⟩).pq.length ≤ rest.length + (adj cur.node).length := by
          simpa using r7
        omega

end Generalized

namespace Generalized

theorem buildAdj_targets (T : TrigOps) (stopsArr : List Stop) (routesArr : List Route)
    (start : String) :
    ∀ u, ∀ e ∈ buildAdj T (buildCoords stopsArr) routesArr u,
      e.to_ ∈ allNames start routesArr := by
  intro u e he
  rw [buildAdj_two_edges_per_route] at he
  obtain ⟨r, hr, he⟩ := List.mem_flatMap.1 he
  rcases h1 : buildCoords stopsArr r.from_ with - | fc <;>
    rcases h2 : buildCoords stopsArr r.to_ with - | tc <;> rw [h1, h2] at he
  · simp at he
  · simp at he
  · simp at he
  · dsimp only [] at he
    rw [List.mem_append] at he
    unfold allNames
    rcases he with he | he <;> split_ifs at he <;>
        (try simp only [List.mem_singleton] at he) <;>
      first
        | (subst he
           refine Finset.mem_insert_of_mem (Finset.mem_union_right _ ?_)
           simp only [List.mem_toFinset, List.mem_map]
           exact ⟨r, hr, rfl⟩)
        | (subst he
           refine Finset.mem_insert_of_mem (Finset.mem_union_left _ ?_)
           simp only [List.mem_toFinset, List.mem_map]
           exact ⟨r, hr, rfl⟩)
        | simp at he

theorem finsetSum_listSum_swap (S : Finset String) (l : List Route)
    (g : Route → String → ℕ) :
    ∑ v ∈ S, (l.map (fun r => g r v)).sum = (l.map (fun r => ∑ v ∈ S, g r v)).sum := by
  induction l with
  | nil => simp
  | cons r rs ih =>
    simp only [List.map_cons, List.sum_cons, Finset.sum_add_distrib, ih]

theorem sum_indicator_le_one (S : Finset String) (a : String) :
    ∑ v ∈ S, (if v = a then 1 else 0) ≤ 1 := by
  rw [Finset.sum_ite_eq' S a (fun _ => 1)]
  split_ifs <;> omega

theorem totalDegree_le (T : TrigOps) (stopsArr : List Stop) (routesArr : List Route)
    (start : String) :
    ∑ v ∈ allNames start routesArr,
      (buildAdj T (buildCoords stopsArr) routesArr v).length ≤ 2 * routesArr.length := by
  have hlen : ∀ v, (buildAdj T (buildCoords stopsArr) routesArr v).length =
      (routesArr.map (fun r =>
        (match buildCoords stopsArr r.from_, buildCoords stopsArr r.to_ with
          | some fromCoords, some toCoords =>
            (if v = r.from_ then
              [(⟨r.to_, r.fare, r.distance.getD (haversine T fromCoords toCoords)⟩ : Edge)]
              else []) ++
            (if v = r.to_ then
              [(⟨r.from_, r.fare, r.distance.getD (haversine T fromCoords toCoords)⟩ : Edge)]
              else [])
          | _, _ => ([] : List Edge)).length)).sum := by
    intro v
    rw [buildAdj_two_edges_per_route]
    rw [List.flatMap, List.length_flatten, List.map_map]
    rfl
  calc ∑ v ∈ allNames start routesArr,
        (buildAdj T (buildCoords stopsArr) routesArr v).length
      = (routesArr.map (fun r => ∑ v ∈ allNames start routesArr,
          (match buildCoords stopsArr r.from_, buildCoords stopsArr r.to_ with
            | some fromCoords, some toCoords =>
              (if v = r.from_ then
                [(⟨r.to_, r.fare, r.distance.getD (haversine T fromCoords toCoords)⟩ : Edge)]
                else []) ++
              (if v = r.to_ then
                [(⟨r.from_, r.fare, r.distance.getD (haversine T fromCoords toCoords)⟩ : Edge)]
                else [])
            | _, _ => ([] : List Edge)).length)).sum := by
        rw [← finsetSum_listSum_swap]
        exact Finset.sum_congr rfl (fun v _ => hlen v)
    _ ≤ (routesArr.map (fun _ => 2)).sum := by
        apply List.Forall₂.sum_le_sum
        rw [List.forall₂_map_right_iff, List.forall₂_map_left_iff]
        apply List.forall₂_same.2
        intro r _
        rcases h1 : buildCoords stopsArr r.from_ with - | fc <;>
          rcases h2 : buildCoords stopsArr r.to_ with - | tc
        · simp
        · simp
        · simp
        · dsimp only []
          calc ∑ v ∈ allNames start routesArr,
              ((if v = r.from_ then
                  [(⟨r.to_, r.fare,
                    r.distance.getD (haversine T fc tc)⟩ : Edge)] else []) ++
               (if v = r.to_ then
                  [(⟨r.from_, r.fare,
                    r.distance.getD (haversine T fc tc)⟩ : Edge)] else [])).length
              = ∑ v ∈ allNames start routesArr,
                ((if v = r.from_ then 1 else 0) + (if v = r.to_ then 1 else 0)) := by
                apply Finset.sum_congr rfl
                intro v _
                split_ifs <;> simp
            _ ≤ 2 := by
                rw [Finset.sum_add_distrib]
                have h1 := sum_indicator_le_one (allNames start routesArr) r.from_
                have h2 := sum_indicator_le_one (allNames start routesArr) r.to_
                omega
    _ = 2 * routesArr.length := by
        rw [List.map_const']
        simp [List.sum_replicate, Nat.smul_one_eq_cast]
        ring

end Generalized

/-- C9: under the data-model invariants (non-negative fares and distances,
self-loop routes allowed), the search loop terminates: with fuel
`2 + 2 * |routes|` — one pop for the seed plus one per queued label, of which
there are at most two per route — `findBestPath` never exhausts its fuel. -/
theorem findBestPath_terminates (T : TrigOps) (stopsArr : List Stop)
    (routesArr : List Route) (start end_ : String) (p : Priority) (fuel : ℕ)
    (hf : ∀ r ∈ routesArr, 0 ≤ r.fare)
    (hd : ∀ r ∈ routesArr, ∀ d, r.distance = some d → 0 ≤ d)
    (hh : ∀ a b, 0 ≤ haversine T a b)
    (hfuel : 2 + 2 * routesArr.length ≤ fuel) :
    Generalized.findBestPath T stopsArr routesArr start end_ p fuel ≠ none := by
  unfold Generalized.findBestPath
  split_ifs with hse
  · simp
  · have hadj := Generalized.buildAdj_nonneg T (buildCoords stopsArr) routesArr hf hd hh
    have hT := Generalized.buildAdj_targets T stopsArr routesArr start
    apply Generalized.searchLoop_no_fuel_out hadj hT fuel _ ∅ ⟨0, 0, 0⟩
    · refine ⟨?_, ?_, ?_, ?_, ?_⟩
      · intro n hn
        rw [List.mem_singleton] at hn
        subst hn
        exact Finset.mem_insert_self _ _
      · intro n hn
        rw [List.mem_singleton] at hn
        subst hn
        exact lexLe_refl _
      · intro v hv
        exact absurd hv (Finset.not_mem_empty v)
      · simp
      · intro n hn
        rw [List.mem_singleton] at hn
        subst hn
        exact ⟨⟨0, 0, 0⟩, by simp, lexLe_refl _⟩
    · unfold Generalized.phi
      dsimp only []
      have hdeg := Generalized.totalDegree_le T stopsArr routesArr start
      rw [Finset.sdiff_empty]
      simp only [List.length_singleton]
      omega

/-- Witness for C9 at a concrete input containing a self-loop route. -/
theorem findBestPath_terminates_witness :
    (∀ r ∈ [(⟨"A", "A", 0, some 0⟩ : Route), ⟨"A", "B", 1, some 1⟩], 0 ≤ r.fare) ∧
    (∀ r ∈ [(⟨"A", "A", 0, some 0⟩ : Route), ⟨"A", "B", 1, some 1⟩],
      ∀ d, r.distance = some d → 0 ≤ d) ∧
    (∀ a b, 0 ≤ haversine Tzero a b) ∧
    2 + 2 * ([(⟨"A", "A", 0, some 0⟩ : Route), ⟨"A", "B", 1, some 1⟩].length) ≤ 6 ∧
    Generalized.findBestPath Tzero [⟨"A", (0, 0)⟩, ⟨"B", (0, 1)⟩]
      [⟨"A", "A", 0, some 0⟩, ⟨"A", "B", 1, some 1⟩] "A" "B" .fare 6 ≠ none := by
  have hh : ∀ a b, 0 ≤ haversine Tzero a b := by
    intro a b
    simp [haversine, Tzero]
  refine ⟨by decide, by decide, hh, by decide, ?_⟩
  exact findBestPath_terminates Tzero [⟨"A", (0, 0)⟩, ⟨"B", (0, 1)⟩]
    [⟨"A", "A", 0, some 0⟩, ⟨"A", "B", 1, some 1⟩] "A" "B" .fare 6
    (by decide) (by decide) hh (by decide)

/-! ## Absent endpoints (C6) -/

namespace Generalized

theorem buildCoords_eq_none (stopsArr : List Stop) (u : String) :
    buildCoords stopsArr u = none ↔ u ∉ stopsArr.map Stop.name := by
  suffices h : ∀ (ss : List Stop) (m : String → Option (ℚ × ℚ)),
      (ss.foldl (fun m s => fun u => if u = s.name then some s.coords else m u) m) u = none ↔
      m u = none ∧ u ∉ ss.map Stop.name by
    rw [buildCoords, h]
    simp
  intro ss
  induction ss with
  | nil => intro m; simp
  | cons s ss ih =>
    intro m
    rw [List.foldl_cons, ih]
    by_cases hu : u = s.name <;> simp [hu]

theorem buildAdj_empty_of_absent (T : TrigOps) (coords : String → Option (ℚ × ℚ))
    (routesArr : List Route) (u : String) (hu : coords u = none) :
    buildAdj T coords routesArr u = [] := by
  rw [buildAdj_two_edges_per_route]
  rw [List.flatMap_eq_nil_iff]
  intro r hr
  rcases h1 : coords r.from_ with - | fc <;> rcases h2 : coords r.to_ with - | tc <;>
    simp only [h1, h2]
  split_ifs <;> first | rfl | simp_all

theorem buildAdj_target_isSome (T : TrigOps) (coords : String → Option (ℚ × ℚ))
    (routesArr : List Route) :
    ∀ u, ∀ e ∈ buildAdj T coords routesArr u, (coords e.to_).isSome := by
  intro u e he
  rw [buildAdj_two_edges_per_route] at he
  obtain ⟨r, hr, he⟩ := List.mem_flatMap.1 he
  rcases h1 : coords r.from_ with - | fc <;> rcases h2 : coords r.to_ with - | tc <;>
    rw [h1, h2] at he
  · simp at he
  · simp at he
  · simp at he
  · dsimp only [] at he
    rw [List.mem_append] at he
    rcases he with he | he <;> split_ifs at he <;>
        (try simp only [List.mem_singleton] at he) <;>
      first
        | (subst he; simp [h1, h2])
        | simp at he

theorem relaxEdges_pq_mem {p : Priority} {cur : Node} :
    ∀ (edges : List Edge) (st : SearchState),
      ∀ n ∈ (relaxEdges p cur edges st).pq,
        n ∈ st.pq ∨ ∃ e ∈ edges, n.node = e.to_ := by
  intro edges
  induction edges with
  | nil => intro st n hn; exact Or.inl hn
  | cons e0 rest ih =>
    intro st n hn
    have hstep : relaxEdges p cur (e0 :: rest) st =
        relaxEdges p cur rest (relaxStep p cur st e0) := rfl
    rw [hstep] at hn
    rcases ih (relaxStep p cur st e0) n hn with hn' | ⟨e, he, hnode⟩
    · by_cases hg : cmpCostOpt p (addC cur.cost e0) (st.best e0.to_) < 0
      · rw [relaxStep_pos hg] at hn'
        dsimp only [] at hn'
        rw [List.mem_append] at hn'
        rcases hn' with hn' | hn'
        · exact Or.inl hn'
        · rw [List.mem_singleton] at hn'
          subst hn'
          exact Or.inr ⟨e0, List.mem_cons_self _ _, rfl⟩
      · rw [relaxStep_neg hg] at hn'
        exact Or.inl hn'
    · exact Or.inr ⟨e, List.mem_cons_of_mem _ he, hnode⟩

theorem searchLoop_never_end {p : Priority} {adj : String → List Edge} {end_ : String}
    (hT : ∀ u, ∀ e ∈ adj u, e.to_ ≠ end_) :
    ∀ (fuel : ℕ) (st : SearchState), (∀ n ∈ st.pq, n.node ≠ end_) →
      ∀ res, searchLoop p adj end_ fuel st ≠ some (some res) := by
  intro fuel
  induction fuel with
  | zero => intro st _ res h; simp [searchLoop] at h
  | succ fuel ih =>
    intro st hinv res h
    rw [searchLoop] at h
    rcases hsort : List.insertionSort
        (fun A B : Node => cmpCost p A.cost B.cost ≤ 0) st.pq with - | ⟨cur, rest⟩
    · rw [hsort] at h
      simp at h
    · rw [hsort] at h
      dsimp only [] at h
      have hsubset : ∀ n, n ∈ cur :: rest → n ∈ st.pq := by
        intro n hn
        exact (List.perm_insertionSort
          (fun A B : Node => cmpCost p A.cost B.cost ≤ 0) st.pq).subset (hsort ▸ hn)
      split_ifs at h with hskip hgoal
      · exact ih ⟨rest, st.best⟩
          (fun n hn => hinv n (hsubset n (List.mem_cons_of_mem cur hn))) res h
      · exact hinv cur (hsubset cur (List.mem_cons_self _ _)) hgoal
      · refine ih _ ?_ res h
        intro n hn
        rcases relaxEdges_pq_mem (adj cur.node) ⟨rest, st.best⟩ n hn with hn' | ⟨e, he, hnode⟩
        · exact hinv n (hsubset n (List.mem_cons_of_mem cur hn'))
        · rw [hnode]
          exact hT cur.node e he

theorem searchLoop_start_only {p : Priority} {adj : String → List Edge}
    {start end_ : String} (hadjS : adj start = []) (hne : start ≠ end_) :
    ∀ (fuel : ℕ) (st : SearchState), (∀ n ∈ st.pq, n.node = start) →
      ∀ res, searchLoop p adj end_ fuel st ≠ some (some res) := by
  intro fuel
  induction fuel with
  | zero => intro st _ res h; simp [searchLoop] at h
  | succ fuel ih =>
    intro st hinv res h
    rw [searchLoop] at h
    rcases hsort : List.insertionSort
        (fun A B : Node => cmpCost p A.cost B.cost ≤ 0) st.pq with - | ⟨cur, rest⟩
    · rw [hsort] at h
      simp at h
    · rw [hsort] at h
      dsimp only [] at h
      have hsubset : ∀ n, n ∈ cur :: rest → n ∈ st.pq := by
        intro n hn
        exact (List.perm_insertionSort
          (fun A B : Node => cmpCost p A.cost B.cost ≤ 0) st.pq).subset (hsort ▸ hn)
      have hcur : cur.node = start := hinv cur (hsubset cur (List.mem_cons_self _ _))
      split_ifs at h with hskip hgoal
      · exact ih ⟨rest, st.best⟩
          (fun n hn => hinv n (hsubset n (List.mem_cons_of_mem cur hn))) res h
      · rw [hcur] at hgoal
        exact hne hgoal
      · refine ih _ ?_ res h
        intro n hn
        rcases relaxEdges_pq_mem (adj cur.node) ⟨rest, st.best⟩ n hn with hn' | ⟨e, he, -⟩
        · exact hinv n (hsubset n (List.mem_cons_of_mem cur hn'))
        · rw [hcur, hadjS] at he
          cases he

end Generalized

/-- C6 counterexample: with the start name equal to the end name and absent
from the stop set, the generalized `findBestPath` returns a full
`PathResult`, not the no-result signal. -/
theorem findBestPath_absent_endpoint_counterexample :
    Generalized.findBestPath Tzero [] [] "X" "X" .fare 0 =
      some (some ⟨["X"], [], 0, 0, 0⟩) ∧
    Generalized.findBestPath Tzero [] [] "X" "X" .fare 0 ≠ some none ∧
    "X" ∉ ([] : List Stop).map Stop.name := by
  refine ⟨by simp [Generalized.findBestPath], ?_, by simp⟩
  simp [Generalized.findBestPath]

/-- C6 amended: when the start name differs from the end name, an absent
endpoint makes `findBestPath` return the no-result signal `null` (given the
data-model nonnegativity and enough fuel for the loop to drain). -/
theorem findBestPath_absent_endpoint_null (T : TrigOps) (stopsArr : List Stop)
    (routesArr : List Route) (start end_ : String) (p : Priority) (fuel : ℕ)
    (hne : start ≠ end_)
    (habs : start ∉ stopsArr.map Stop.name ∨ end_ ∉ stopsArr.map Stop.name)
    (hf : ∀ r ∈ routesArr, 0 ≤ r.fare)
    (hd : ∀ r ∈ routesArr, ∀ d, r.distance = some d → 0 ≤ d)
    (hh : ∀ a b, 0 ≤ haversine T a b)
    (hfuel : 2 + 2 * routesArr.length ≤ fuel) :
    Generalized.findBestPath T stopsArr routesArr start end_ p fuel = some none := by
  have hterm := findBestPath_terminates T stopsArr routesArr start end_ p fuel
    hf hd hh hfuel
  have hnosucc : ∀ res, Generalized.findBestPath T stopsArr routesArr start end_ p fuel ≠
      some (some res) := by
    intro res
    unfold Generalized.findBestPath
    rw [if_neg hne]
    rcases habs with habs | habs
    · have hadjS : Generalized.buildAdj T (buildCoords stopsArr) routesArr start = [] :=
        Generalized.buildAdj_empty_of_absent T _ routesArr start
          ((Generalized.buildCoords_eq_none stopsArr start).2 habs)
      apply Generalized.searchLoop_start_only hadjS hne
      intro n hn
      rw [List.mem_singleton] at hn
      subst hn
      rfl
    · have hendc : buildCoords stopsArr end_ = none :=
        (Generalized.buildCoords_eq_none stopsArr end_).2 habs
      apply Generalized.searchLoop_never_end
      · intro u e he heq
        have := Generalized.buildAdj_target_isSome T (buildCoords stopsArr) routesArr u e he
        rw [heq, hendc] at this
        cases this
      · intro n hn
        rw [List.mem_singleton] at hn
        subst hn
        exact hne
  rcases hres : Generalized.findBestPath T stopsArr routesArr start end_ p fuel with - | r
  · exact absurd hres hterm
  · rcases r with - | res
    · rfl
    · exact absurd hres (hnosucc res)

/-- Witness for the amended C6 at a concrete input. -/
theorem findBestPath_absent_endpoint_null_witness :
    ("A" : String) ≠ "Z" ∧
    (("A" : String) ∉ [(⟨"A", (0, 0)⟩ : Stop)].map Stop.name ∨
      ("Z" : String) ∉ [(⟨"A", (0, 0)⟩ : Stop)].map Stop.name) ∧
    (∀ r ∈ ([] : List Route), 0 ≤ r.fare) ∧
    (∀ r ∈ ([] : List Route), ∀ d, r.distance = some d → 0 ≤ d) ∧
    (∀ a b, 0 ≤ haversine Tzero a b) ∧
    2 + 2 * ([] : List Route).length ≤ 2 ∧
    Generalized.findBestPath Tzero [⟨"A", (0, 0)⟩] [] "A" "Z" .fare 2 = some none := by
  have hh : ∀ a b, 0 ≤ haversine Tzero a b := by
    intro a b
    simp [haversine, Tzero]
  refine ⟨by decide, Or.inr (by decide), by decide, by decide, hh, by decide, ?_⟩
  exact findBestPath_absent_endpoint_null Tzero [⟨"A", (0, 0)⟩] [] "A" "Z" .fare 2
    (by decide) (Or.inr (by decide)) (by decide) (by decide) hh (by decide)

/-! ## The two implementations compared (C10) -/

/-- C10 counterexample: on a route with a declared distance, the generalized
implementation uses the declared value while the historical one recomputes
haversine, so the two return different legs and totals. -/
theorem two_implementations_differ :
    Generalized.findBestPath Tzero [⟨"A", (0, 0)⟩, ⟨"B", (0, 1)⟩] [⟨"A", "B", 1, some 5⟩]
        "A" "B" .fare 3 =
      some (some ⟨["A", "B"], [⟨"A", "B", 1, 5⟩], 1, 5, 1⟩) ∧
    Historical.findBestPath Tzero [⟨"A", (0, 0)⟩, ⟨"B", (0, 1)⟩] [⟨"A", "B", 1, some 5⟩]
        "A" "B" 3 =
      some (some ⟨["A", "B"], [⟨"A", "B", 1, 0⟩], 1, 0⟩) ∧
    (5 : ℚ) ≠ 0 := by
  refine ⟨?_, ?_, by norm_num⟩
  · norm_num +decide [Generalized.findBestPath, Generalized.searchLoop,
      Generalized.relaxEdges, Generalized.relaxStep, Generalized.cmpCost,
      Generalized.cmpCostOpt, Generalized.mkResult, Generalized.addC,
      Generalized.buildAdj, buildCoords, List.insertionSort, List.orderedInsert]
  · norm_num +decide [Historical.findBestPath, Historical.searchLoopH,
      Historical.routeStep, Historical.revPart, Historical.relaxH,
      Historical.isBetter, Historical.isBetterOpt, Historical.eqBestOpt,
      Historical.cmpNodeH, haversine, Tzero, buildCoords,
      List.insertionSort, List.orderedInsert]

namespace Historical

theorem map_orderedInsert {α β : Type} (f : α → β) (ra : α → α → Prop)
    (rb : β → β → Prop) [DecidableRel ra] [DecidableRel rb]
    (hiff : ∀ x y, ra x y ↔ rb (f x) (f y)) (a : α) :
    ∀ l : List α, (List.orderedInsert ra a l).map f =
      List.orderedInsert rb (f a) (l.map f) := by
  intro l
  induction l with
  | nil => simp
  | cons b l ih =>
    by_cases h : ra a b
    · simp [List.orderedInsert, h, (hiff a b).1 h]
    · have h' : ¬ rb (f a) (f b) := fun hc => h ((hiff a b).2 hc)
      simp [List.orderedInsert, h, h', ih]

theorem map_insertionSort {α β : Type} (f : α → β) (ra : α → α → Prop)
    (rb : β → β → Prop) [DecidableRel ra] [DecidableRel rb]
    (hiff : ∀ x y, ra x y ↔ rb (f x) (f y)) :
    ∀ l : List α, (List.insertionSort ra l).map f =
      List.insertionSort rb (l.map f) := by
  intro l
  induction l with
  | nil => simp
  | cons a l ih =>
    rw [List.insertionSort, List.map_cons, List.insertionSort, ← ih,
      map_orderedInsert f ra rb hiff]

theorem cmpNodeH_eq_cmpCost (A B : NodeH) :
    cmpNodeH A B = Generalized.cmpCost .fare (toNode A).cost (toNode B).cost := rfl

theorem isBetter_iff (a b : Cost) :
    isBetter a b = true ↔ lexLt (keys .fare a) (keys .fare b) := by
  rcases eq_or_ne a.fare b.fare with h1 | h1 <;>
    rcases eq_or_ne a.stops b.stops with h2 | h2 <;>
    rcases eq_or_ne a.distance b.distance with h3 | h3 <;>
    simp [isBetter, keys, lexLt, h1, h2, h3, Nat.cast_inj, Nat.cast_lt]

theorem eqBestOpt_some_iff (a b : Cost) :
    eqBestOpt a (some b) = true ↔ a = b := by
  cases a
  cases b
  simp [eqBestOpt, Cost.mk.injEq]
  tauto

theorem isBetterOpt_iff (c : Cost) (ob : Option Cost) :
    isBetterOpt c ob = true ↔ Generalized.cmpCostOpt .fare c ob < 0 := by
  cases ob with
  | none => simp [isBetterOpt, Generalized.cmpCostOpt]
  | some b =>
    rw [isBetterOpt, Generalized.cmpCostOpt, cmpCost_neg_iff, isBetter_iff]

theorem skip_iff (c : Cost) (ob : Option Cost) :
    ((¬ (isBetterOpt c ob = true)) ∧ ¬ (eqBestOpt c ob = true)) ↔
      0 < Generalized.cmpCostOpt .fare c ob := by
  cases ob with
  | none => simp [isBetterOpt, eqBestOpt, Generalized.cmpCostOpt]
  | some b =>
    rw [isBetterOpt, eqBestOpt_some_iff]
    constructor
    · rintro ⟨h1, h2⟩
      rw [isBetter_iff] at h1
      rw [Generalized.cmpCostOpt, cmpCost_pos_iff]
      rcases lexLt_trichotomy (keys .fare c) (keys .fare b) with h | h | h
      · exact absurd h h1
      · exact absurd (keys_inj _ h) h2
      · exact h
    · intro h
      rw [Generalized.cmpCostOpt, cmpCost_pos_iff] at h
      constructor
      · rw [isBetter_iff]
        exact lexLt_asymm h
      · intro hc
        subst hc
        exact lexLt_irrefl _ h

end Historical

namespace Historical

theorem relaxH_pos {T : TrigOps} {current : NodeH} {st : StateH}
    {legFrom legTo : String} {fare : ℚ} {fromCoords toCoords : ℚ × ℚ}
    (hg : isBetterOpt ⟨current.fare + fare, current.stopsCount + 1,
        current.distance + haversine T fromCoords toCoords⟩ (st.best legTo) = true) :
    relaxH T current st legFrom legTo fare fromCoords toCoords =
      ⟨st.pq ++ [{
          stop := legTo
          path := current.path ++ [legTo]
          legs := current.legs ++ [⟨legFrom, legTo, fare, haversine T fromCoords toCoords⟩]
          fare := current.fare + fare
          stopsCount := current.stopsCount + 1
          distance := current.distance + haversine T fromCoords toCoords }],
        fun u => if u = legTo then
          some ⟨current.fare + fare, current.stopsCount + 1,
            current.distance + haversine T fromCoords toCoords⟩
          else st.best u⟩ := by
  unfold relaxH
  dsimp only []
  rw [if_pos hg]

theorem relaxH_neg {T : TrigOps} {current : NodeH} {st : StateH}
    {legFrom legTo : String} {fare : ℚ} {fromCoords toCoords : ℚ × ℚ}
    (hg : ¬ (isBetterOpt ⟨current.fare + fare, current.stopsCount + 1,
        current.distance + haversine T fromCoords toCoords⟩ (st.best legTo) = true)) :
    relaxH T current st legFrom legTo fare fromCoords toCoords = st := by
  unfold relaxH
  dsimp only []
  rw [if_neg hg]

theorem relax_dir_bisim (T : TrigOps) (cur : NodeH) (stH : StateH) (tgt : String)
    (fare d : ℚ) (fromC toC : ℚ × ℚ) (hdist : haversine T fromC toC = d) :
    Generalized.relaxStep .fare (toNode cur) ⟨stH.pq.map toNode, stH.best⟩
        ⟨tgt, fare, d⟩ =
      ⟨(relaxH T cur stH cur.stop tgt fare fromC toC).pq.map toNode,
        (relaxH T cur stH cur.stop tgt fare fromC toC).best⟩ := by
  subst hdist
  have haddc : Generalized.addC (toNode cur).cost ⟨tgt, fare, haversine T fromC toC⟩ =
      ⟨cur.fare + fare, cur.stopsCount + 1, cur.distance + haversine T fromC toC⟩ := rfl
  by_cases hg : Generalized.cmpCostOpt .fare
      ⟨cur.fare + fare, cur.stopsCount + 1, cur.distance + haversine T fromC toC⟩
      (stH.best tgt) < 0
  · have hgG : Generalized.cmpCostOpt .fare
        (Generalized.addC (toNode cur).cost ⟨tgt, fare, haversine T fromC toC⟩)
        (stH.best tgt) < 0 := by rw [haddc]; exact hg
    have hgH : isBetterOpt
        ⟨cur.fare + fare, cur.stopsCount + 1, cur.distance + haversine T fromC toC⟩
        (stH.best tgt) = true :=
      (isBetterOpt_iff ⟨cur.fare + fare, cur.stopsCount + 1,
        cur.distance + haversine T fromC toC⟩ (stH.best tgt)).2 hg
    rw [Generalized.relaxStep_pos hgG, relaxH_pos hgH]
    dsimp only []
    rw [List.map_append]
    rfl
  · have hgG : ¬ Generalized.cmpCostOpt .fare
        (Generalized.addC (toNode cur).cost ⟨tgt, fare, haversine T fromC toC⟩)
        (stH.best tgt) < 0 := by rw [haddc]; exact hg
    have hgH : ¬ (isBetterOpt
        ⟨cur.fare + fare, cur.stopsCount + 1, cur.distance + haversine T fromC toC⟩
        (stH.best tgt) = true) :=
      fun hc => hg ((isBetterOpt_iff ⟨cur.fare + fare, cur.stopsCount + 1,
        cur.distance + haversine T fromC toC⟩ (stH.best tgt)).1 hc)
    rw [@Generalized.relaxStep_neg .fare (toNode cur) ⟨stH.pq.map toNode, stH.best⟩
        ⟨tgt, fare, haversine T fromC toC⟩ hgG,
      @relaxH_neg T cur stH cur.stop tgt fare fromC toC hgH]

theorem foldl_flatMap {α β γ : Type} (f : γ → β → γ) (g : α → List β) :
    ∀ (l : List α) (init : γ), ((l.flatMap g).foldl f init) =
      l.foldl (fun acc r => (g r).foldl f acc) init := by
  intro l
  induction l with
  | nil => intro init; simp
  | cons a l ih =>
    intro init
    rw [List.flatMap_cons, List.foldl_append, List.foldl_cons, ih]

theorem relax_route_bisim (T : TrigOps) (coords : String → Option (ℚ × ℚ))
    (hsym : ∀ a b, haversine T a b = haversine T b a)
    (cur : NodeH) (r : Route) (hnd : r.distance = none) (stH : StateH) :
    Generalized.relaxEdges .fare (toNode cur)
      (match coords r.from_, coords r.to_ with
        | some fromCoords, some toCoords =>
          (if cur.stop = r.from_ then
            [(⟨r.to_, r.fare, r.distance.getD (haversine T fromCoords toCoords)⟩ : Edge)]
            else []) ++
          (if cur.stop = r.to_ then
            [(⟨r.from_, r.fare, r.distance.getD (haversine T fromCoords toCoords)⟩ : Edge)]
            else [])
        | _, _ => [])
      ⟨stH.pq.map toNode, stH.best⟩ =
    ⟨(routeStep T coords cur stH r).pq.map toNode,
      (routeStep T coords cur stH r).best⟩ := by
  rcases h1 : coords r.from_ with - | fc <;> rcases h2 : coords r.to_ with - | tc <;>
    unfold routeStep revPart <;> rw [h1, h2] <;> dsimp only []
  · split_ifs <;> rfl
  · split_ifs <;> rfl
  · split_ifs <;> rfl
  · rw [hnd]
    simp only [Option.getD_none]
    by_cases hf : cur.stop = r.from_ <;> by_cases ht : cur.stop = r.to_
    · rw [if_pos hf, if_pos ht, if_pos hf.symm, if_pos ht.symm]
      have hstep : Generalized.relaxEdges .fare (toNode cur)
          ([(⟨r.to_, r.fare, haversine T fc tc⟩ : Edge)] ++
            [(⟨r.from_, r.fare, haversine T fc tc⟩ : Edge)])
          ⟨stH.pq.map toNode, stH.best⟩ =
          Generalized.relaxStep .fare (toNode cur)
            (Generalized.relaxStep .fare (toNode cur)
              ⟨stH.pq.map toNode, stH.best⟩ ⟨r.to_, r.fare, haversine T fc tc⟩)
            ⟨r.from_, r.fare, haversine T fc tc⟩ := rfl
      rw [hstep]
      rw [← hf, ← ht]
      rw [relax_dir_bisim T cur stH cur.stop r.fare (haversine T fc tc) fc tc rfl]
      exact relax_dir_bisim T cur (relaxH T cur stH cur.stop cur.stop r.fare fc tc)
        cur.stop r.fare (haversine T fc tc) tc fc (hsym tc fc)
    · rw [if_pos hf, if_neg ht, if_pos hf.symm, if_neg (fun hc => ht hc.symm)]
      have hstep : Generalized.relaxEdges .fare (toNode cur)
          ([(⟨r.to_, r.fare, haversine T fc tc⟩ : Edge)] ++ [])
          ⟨stH.pq.map toNode, stH.best⟩ =
          Generalized.relaxStep .fare (toNode cur)
            ⟨stH.pq.map toNode, stH.best⟩ ⟨r.to_, r.fare, haversine T fc tc⟩ := rfl
      rw [hstep]
      rw [← hf]
      exact relax_dir_bisim T cur stH r.to_ r.fare (haversine T fc tc) fc tc rfl
    · rw [if_neg hf, if_pos ht, if_neg (fun hc => hf hc.symm), if_pos ht.symm]
      have hstep : Generalized.relaxEdges .fare (toNode cur)
          ([] ++ [(⟨r.from_, r.fare, haversine T fc tc⟩ : Edge)])
          ⟨stH.pq.map toNode, stH.best⟩ =
          Generalized.relaxStep .fare (toNode cur)
            ⟨stH.pq.map toNode, stH.best⟩ ⟨r.from_, r.fare, haversine T fc tc⟩ := rfl
      rw [hstep]
      rw [← ht]
      exact relax_dir_bisim T cur stH r.from_ r.fare (haversine T fc tc) tc fc (hsym tc fc)
    · rw [if_neg hf, if_neg ht, if_neg (fun hc => hf hc.symm),
        if_neg (fun hc => ht hc.symm)]
      rfl

end Historical

namespace Historical

theorem relaxEdges_split (p : Priority) (cur : Generalized.Node)
    (xs ys : List Edge) (st : Generalized.SearchState) :
    Generalized.relaxEdges p cur (xs ++ ys) st =
      Generalized.relaxEdges p cur ys (Generalized.relaxEdges p cur xs st) := by
  unfold Generalized.relaxEdges
  rw [List.foldl_append]

theorem relax_all_bisim (cur : NodeH) (g : Route → List Edge)
    (step : StateH → Route → StateH) :
    ∀ (rs : List Route),
    (∀ r ∈ rs, ∀ st : StateH, Generalized.relaxEdges .fare (toNode cur) (g r)
      ⟨st.pq.map toNode, st.best⟩ = ⟨(step st r).pq.map toNode, (step st r).best⟩) →
    ∀ (st : StateH),
    Generalized.relaxEdges .fare (toNode cur) (rs.flatMap g) ⟨st.pq.map toNode, st.best⟩ =
      ⟨(rs.foldl step st).pq.map toNode, (rs.foldl step st).best⟩ := by
  intro rs
  induction rs with
  | nil => intro _ st; rfl
  | cons r rs ih =>
    intro hc st
    rw [List.flatMap_cons, relaxEdges_split, hc r (List.mem_cons_self r rs) st,
      List.foldl_cons]
    exact ih (fun r' hr' st' => hc r' (List.mem_cons_of_mem r hr') st') (step st r)

theorem loop_bisim (T : TrigOps) (coords : String → Option (ℚ × ℚ))
    (routesArr : List Route) (end_ : String)
    (hsym : ∀ a b, haversine T a b = haversine T b a)
    (hnd : ∀ r ∈ routesArr, r.distance = none) :
    ∀ (fuel : ℕ) (stH : StateH),
      searchLoopH T coords routesArr end_ fuel stH =
        Option.map (Option.map projH)
          (Generalized.searchLoop .fare (Generalized.buildAdj T coords routesArr) end_
            fuel ⟨stH.pq.map toNode, stH.best⟩) := by
  intro fuel
  induction fuel with
  | zero => intro stH; rfl
  | succ fuel ih =>
    intro stH
    rw [searchLoopH, Generalized.searchLoop]
    dsimp only []
    have hiff : ∀ a b : NodeH, (cmpNodeH a b ≤ 0) ↔
        (Generalized.cmpCost .fare (toNode a).cost (toNode b).cost ≤ 0) := by
      intro a b
      rw [cmpNodeH_eq_cmpCost]
    rw [← map_insertionSort toNode (fun A B : NodeH => cmpNodeH A B ≤ 0)
      (fun A B : Generalized.Node => Generalized.cmpCost .fare A.cost B.cost ≤ 0)
      hiff stH.pq]
    rcases hq : List.insertionSort (fun A B : NodeH => cmpNodeH A B ≤ 0) stH.pq
      with - | ⟨cur, rest⟩
    · rfl
    · simp only [List.map_cons]
      by_cases hskip : 0 < Generalized.cmpCostOpt .fare
          ⟨cur.fare, cur.stopsCount, cur.distance⟩ (stH.best cur.stop)
      · have hH := (skip_iff ⟨cur.fare, cur.stopsCount, cur.distance⟩
          (stH.best cur.stop)).2 hskip
        have hG : Generalized.cmpCostOpt .fare (toNode cur).cost
            (stH.best (toNode cur).node) > 0 := hskip
        rw [if_pos hH, if_pos hH.2, if_pos hG]
        exact ih ⟨rest, stH.best⟩
      · have hH : ¬ (¬ (isBetterOpt ⟨cur.fare, cur.stopsCount, cur.distance⟩
            (stH.best cur.stop) = true) ∧
            ¬ (eqBestOpt ⟨cur.fare, cur.stopsCount, cur.distance⟩
              (stH.best cur.stop) = true)) :=
          fun hc => hskip ((skip_iff ⟨cur.fare, cur.stopsCount, cur.distance⟩
            (stH.best cur.stop)).1 hc)
        have hG : ¬ (Generalized.cmpCostOpt .fare (toNode cur).cost
            (stH.best (toNode cur).node) > 0) := hskip
        rw [if_neg hH, if_neg hG]
        by_cases hend : cur.stop = end_
        · have hendG : (toNode cur).node = end_ := hend
          rw [if_pos hend, if_pos hendG]
          rfl
        · have hendG : ¬ ((toNode cur).node = end_) := hend
          rw [if_neg hend, if_neg hendG]
          refine Eq.trans (ih (routesArr.foldl (routeStep T coords cur)
            ⟨rest, stH.best⟩)) ?_
          refine congrArg _ (congrArg _ ?_)
          rw [buildAdj_two_edges_per_route T coords routesArr (toNode cur).node]
          exact (relax_all_bisim cur _ (routeStep T coords cur) routesArr
            (fun r hr st => relax_route_bisim T coords hsym cur r (hnd r hr) st)
            ⟨rest, stH.best⟩).symm

end Historical

/-- C10 (amended): for every input in which start differs from end, both
endpoint names resolve in the stop set, every route's declared distance is
absent (so both implementations price legs by the same haversine values), and
the distance function is symmetric in its two endpoints, the historical
fare-hardwired `findBestPath` of `findPath.ts` returns exactly the generalized
`findBestPath` run with priority `fare`, projected onto the historical result
shape (which omits `totalStops`); outside these conditions the two
implementations disagree (see the counterexample). -/
theorem implementations_agree_modulo_totalStops
    (T : TrigOps) (stopsArr : List Stop) (routesArr : List Route)
    (start end_ : String) (fuel : ℕ)
    (hne : start ≠ end_)
    (hs : start ∈ stopsArr.map Stop.name)
    (he2 : end_ ∈ stopsArr.map Stop.name)
    (hnd : ∀ r ∈ routesArr, r.distance = none)
    (hsym : ∀ a b, haversine T a b = haversine T b a) :
    Historical.findBestPath T stopsArr routesArr start end_ fuel =
      Option.map (Option.map Historical.projH)
        (Generalized.findBestPath T stopsArr routesArr start end_ .fare fuel) := by
  have hguard : ¬ ((buildCoords stopsArr start).isNone = true ∨
      (buildCoords stopsArr end_).isNone = true) := by
    rintro (h | h)
    · exact ((Generalized.buildCoords_eq_none stopsArr start).1 (Option.isNone_iff_eq_none.1 h)) hs
    · exact ((Generalized.buildCoords_eq_none stopsArr end_).1 (Option.isNone_iff_eq_none.1 h)) he2
  unfold Historical.findBestPath Generalized.findBestPath
  dsimp only []
  rw [if_neg hguard, if_neg hne]
  exact Historical.loop_bisim T (buildCoords stopsArr) routesArr end_ hsym hnd fuel
    ⟨[⟨start, [start], [], 0, 0, 0⟩], fun u => if u = start then some ⟨0, 0, 0⟩ else none⟩

/-- Witness for the amended C10 at a concrete input. -/
theorem implementations_agree_modulo_totalStops_witness :
    Historical.findBestPath Tzero [⟨"A", (0, 0)⟩, ⟨"B", (0, 0)⟩] [⟨"A", "B", 2, none⟩]
        "A" "B" 3 =
      Option.map (Option.map Historical.projH)
        (Generalized.findBestPath Tzero [⟨"A", (0, 0)⟩, ⟨"B", (0, 0)⟩]
          [⟨"A", "B", 2, none⟩] "A" "B" .fare 3) :=
  implementations_agree_modulo_totalStops Tzero [⟨"A", (0, 0)⟩, ⟨"B", (0, 0)⟩]
    [⟨"A", "B", 2, none⟩] "A" "B" 3 (by decide) (by decide) (by decide) (by decide)
    (fun a b => by simp [haversine, Tzero])
